import Mathlib

/-!
Verification development for the logslimmer event segmentation, similarity and
clustering engine.  The JavaScript sources are shallowly embedded: pure
functions become Lean functions over `List Char` / `List String` / `ℚ`,
JS `Map`s become insertion-ordered association lists, fallible code returns
`Option` or `Except`, and machine arithmetic (the 32-bit string hashes) is
modelled with explicit `% 2 ^ 32` wrapping on `Int`/`Nat`.
-/

set_option maxHeartbeats 1600000
set_option maxRecDepth 8000

attribute [local semireducible] Rat.add Rat.sub Rat.mul Rat.inv Rat.ofScientific

namespace LogSlimmer

/-! ## JS 32-bit primitives

The string hash loops in `similarity-utils.js` use the JS idiom
`hash = ((hash << 5) - hash + c) & 0x7fffffff`.  `<<` wraps at 32 bits
(signed), `& 0x7fffffff` keeps the low 31 bits of the two's-complement
representation, so the accumulator always lies in `[0, 2^31)`. -/

def int32 (n : Int) : Int := ((n + 2 ^ 31).emod (2 ^ 32)) - 2 ^ 31

def mask31 (n : Int) : Nat := ((n.emod (2 ^ 32)) % (2 ^ 31)).toNat

/-- One step `hash = ((hash << 5) - hash + c) & 0x7fffffff` of the JS string
hash, for an accumulator `h < 2^31` and a code `c`. -/
def hashStep (h c : Nat) : Nat := mask31 (int32 ((h : Int) * 32) - (h : Int) + (c : Int))

/-! ## similarity-utils.js : levenshteinDistance / normalizedLevenshtein

`levenshteinDistance` is the classic two-row dynamic program over prefixes;
`normalizedLevenshtein` divides by the max length (0 when both empty). -/

/-- Substitution cost used by the DP (`a[i-1] === b[j-1] ? 0 : 1`). -/
def levCost (x y : Char) : Nat := if x = y then 0 else 1

/-- Inner loop of `levenshteinDistance`: walk the remaining characters of `b`
together with the tail of the previous row, carrying the previous row's
entry `diag` at position `j-1` and the current row's entry `left` at
position `j-1`, producing the current row's entries at positions `1..`. -/
def levRowAux (c : Char) : List Char → List Nat → Nat → Nat → List Nat
  | [], _, _, _ => []
  | _ :: _, [], _, _ => []
  | y :: bs, pj :: ps, diag, left =>
    let cur := min (min (left + 1) (pj + 1)) (diag + levCost c y)
    cur :: levRowAux c bs ps pj cur

/-- One outer-loop iteration of `levenshteinDistance`: from the previous DP
row `prev` build the row for one more character `c` of `a` (`curr[0] = i`). -/
def levRow (c : Char) (b : List Char) (prev : List Nat) (i : Nat) : List Nat :=
  match prev with
  | [] => [i]
  | p0 :: ps => i :: levRowAux c b ps p0 i

/-- The outer loop of `levenshteinDistance` over the characters of `a`. -/
def levRows (b : List Char) : List Char → List Nat → Nat → List Nat
  | [], prev, _ => prev
  | c :: as, prev, i => levRows b as (levRow c b prev i) (i + 1)

/-- Embedding of `levenshteinDistance(a, b)` from `similarity-utils.js`,
including its early-return branches. -/
def levenshteinDistance (a b : List Char) : Nat :=
  if a = b then 0
  else if a.length = 0 then b.length
  else if b.length = 0 then a.length
  else (levRows b a (List.range (b.length + 1)) 1).getD b.length 0

/-- The textbook recursive definition of the Levenshtein edit distance,
used as the mathematical specification the DP is checked against. -/
def levRec : List Char → List Char → Nat
  | [], ys => ys.length
  | x :: xs, [] => (x :: xs).length
  | x :: xs, y :: ys =>
    min (min (levRec xs (y :: ys) + 1) (levRec (x :: xs) ys + 1))
      (levRec xs ys + levCost x y)

/-- Embedding of `normalizedLevenshtein(a, b)`: edit distance over max
length, `0` when both strings are empty.  Values are idealized in `ℚ`. -/
def normalizedLevenshtein (a b : List Char) : ℚ :=
  if max a.length b.length = 0 then 0
  else (levenshteinDistance a b : ℚ) / ((max a.length b.length : ℕ) : ℚ)

/-- Specification of a DP row: entries `levRec ra (pre ++ q)` for the
successive nonempty prefixes `q` of the remaining characters `bs`. -/
def rowSpecAux (ra : List Char) : List Char → List Char → List Nat
  | _, [] => []
  | pre, y :: bs => levRec ra (pre ++ [y]) :: rowSpecAux ra (pre ++ [y]) bs

/-- Specification of a full DP row for the processed prefix `ra` of `a`. -/
def rowSpec (ra b : List Char) : List Nat :=
  levRec ra [] :: rowSpecAux ra [] b

/-! ## enhanced-tokenizer.js : technical tokens, weights, weighted Jaccard

The eight `TECHNICAL_PATTERNS` regexes are embedded as decidable matchers on
strings (ASCII case-folding, which covers every character class the
patterns use). -/

/-- ASCII lower-casing, as `String.prototype.toLowerCase` acts on ASCII. -/
def lowerStr (s : String) : String := String.mk (s.toList.map Char.toLower)

def HTTP_METHODS : List String :=
  ["get", "post", "put", "delete", "patch", "head", "options", "connect", "trace"]

def ERROR_KEYWORDS : List String :=
  ["error", "exception", "failed", "failure", "timeout", "abort", "cancel", "reject"]

def FILE_EXTS : List String :=
  ["js", "ts", "jsx", "tsx", "py", "java", "c", "cpp", "h", "php", "rb", "go",
   "rs", "html", "css", "json", "xml", "yaml", "yml", "md", "txt", "log"]

def DB_KEYWORDS : List String :=
  ["select", "insert", "update", "delete", "create", "drop", "alter", "table",
   "index", "where", "join", "from", "into"]

def isHexLower (c : Char) : Bool := c.isDigit || ('a' ≤ c && c ≤ 'f')

/-- Matcher for `/^\d{3}$/` (HTTP status codes). -/
def isStatusCodeToken (t : String) : Bool :=
  t.toList.length = 3 && t.toList.all Char.isDigit

/-- Matcher for the simplified UUID pattern `[a-f0-9]{8}-…{4}-…{4}-…{4}-…{12}`,
case-insensitive and anchored at both ends. -/
def isUuidToken (t : String) : Bool :=
  let cs := (lowerStr t).toList
  cs.length = 36 && (cs.take 8).all isHexLower && cs.get? 8 = some '-' &&
    ((cs.drop 9).take 4).all isHexLower && cs.get? 13 = some '-' &&
    ((cs.drop 14).take 4).all isHexLower && cs.get? 18 = some '-' &&
    ((cs.drop 19).take 4).all isHexLower && cs.get? 23 = some '-' &&
    (cs.drop 24).all isHexLower

/-- Matcher for `/\.(js|ts|…)$/i` (file extensions). -/
def isFileExtToken (t : String) : Bool :=
  FILE_EXTS.any (fun e => (lowerStr t).endsWith ("." ++ e))

def isIdentStart (c : Char) : Bool := c.isAlpha || c = '_'

def isIdentChar (c : Char) : Bool := c.isAlphanum || c = '_'

/-- Matcher for `/^[a-zA-Z_][a-zA-Z0-9_]*\([^)]*\)$/` (call expressions):
an identifier, an opening parenthesis, a body free of `)`, and a final `)`. -/
def isFuncCallToken (t : String) : Bool :=
  match t.toList with
  | [] => false
  | c :: rest =>
    isIdentStart c &&
      (match rest.dropWhile isIdentChar with
       | '(' :: rest3 =>
         rest3 ≠ [] && rest3.getLast? = some ')' && rest3.dropLast.all (· ≠ ')')
       | _ => false)

def isEndpointChar (c : Char) : Bool := c.isAlphanum || c = '/' || c = '_' || c = '-'

/-- Matcher for `/^(\/[a-zA-Z0-9\/_-]*)+$/` (API endpoints): since `/` is in
the character class this is exactly "starts with `/`, all characters in the
class". -/
def isApiEndpointToken (t : String) : Bool :=
  match t.toList with
  | [] => false
  | c :: _ => c = '/' && t.toList.all isEndpointChar

/-- Embedding of `isTechnicalToken`: any of the eight `TECHNICAL_PATTERNS`. -/
def isTechnicalToken (t : String) : Bool :=
  HTTP_METHODS.contains (lowerStr t) ||
  isStatusCodeToken t ||
  ERROR_KEYWORDS.contains (lowerStr t) ||
  isUuidToken t ||
  isFileExtToken t ||
  isFuncCallToken t ||
  isApiEndpointToken t ||
  DB_KEYWORDS.contains (lowerStr t)

/-- N-grams are the only tokens containing a space (`token.includes(' ')`). -/
def isNGramToken (t : String) : Bool := t.toList.contains ' '

/-- Per-position weight of a token in `calculateTokenWeights`: base 1,
×3 technical, ×2 status code, ×1.5 n-gram, times the position decay
`max(0.5, 1 - (i/n)·0.5)`. -/
def tokenUnitWeight (n i : Nat) (t : String) : ℚ :=
  let w1 : ℚ := 1
  let w2 := if isTechnicalToken t then w1 * 3 else w1
  let w3 := if isStatusCodeToken t then w2 * 2 else w2
  let w4 := if isNGramToken t then w3 * (3 / 2) else w3
  w4 * max (1 / 2) (1 - ((i : ℚ) / (n : ℚ)) * (1 / 2))

/-- JS `Map.set`-style accumulation: update in place, else append. -/
def addWeight : List (String × ℚ) → String → ℚ → List (String × ℚ)
  | [], t, w => [(t, w)]
  | (k, v) :: rest, t, w =>
    if k = t then (k, v + w) :: rest else (k, v) :: addWeight rest t w

/-- Embedding of `calculateTokenWeights(tokens)`. -/
def calculateTokenWeights (tokens : List String) : List (String × ℚ) :=
  tokens.enum.foldl
    (fun m p => addWeight m p.2 (tokenUnitWeight tokens.length p.1 p.2)) []

/-- Lookup with JS `weights.get(token) || 0` semantics. -/
def weightOf (m : List (String × ℚ)) (t : String) : ℚ := ((m.lookup t).getD 0)

/-- JS `new Set(list)` iteration order: first-occurrence de-duplication. -/
def jsSetDedup (l : List String) : List String :=
  l.foldl (fun acc t => if acc.contains t then acc else acc ++ [t]) []

/-- Embedding of `weightedJaccardSimilarity(tokensA, tokensB)`:
`Σ min / Σ max` of per-token weights over the union of keys, `0` when either
token list is empty. -/
def weightedJaccardSimilarity (tokensA tokensB : List String) : ℚ :=
  if tokensA = [] ∨ tokensB = [] then 0
  else
    let wA := calculateTokenWeights tokensA
    let wB := calculateTokenWeights tokensB
    let allTokens := jsSetDedup (wA.map Prod.fst ++ wB.map Prod.fst)
    let inter := (allTokens.map (fun t => min (weightOf wA t) (weightOf wB t))).sum
    let uni := (allTokens.map (fun t => max (weightOf wA t) (weightOf wB t))).sum
    if uni = 0 then 0 else inter / uni

/-! ## utils/tokenization-cache.js : LRU tokenization cache

`cache` is a JS `Map` (insertion-ordered association list with unique keys),
`accessOrder` the recency array; `getTokens` returns the tokens together
with the updated cache state. -/

/-- JS `Map.delete(key)`: drop the (unique) entry with that key; no-op when
the key is absent. -/
def eraseKey {κ α : Type} [DecidableEq κ] : List (κ × α) → κ → List (κ × α)
  | [], _ => []
  | (k, v) :: rest, t => if k = t then rest else (k, v) :: eraseKey rest t

/-- JS `Map.set(key, value)`: update in place, else append. -/
def setKey {κ α : Type} [DecidableEq κ] : List (κ × α) → κ → α → List (κ × α)
  | [], t, v => [(t, v)]
  | (k, w) :: rest, t, v =>
    if k = t then (k, v) :: rest else (k, w) :: setKey rest t v

structure TokCache where
  tokenizer : String → List String
  cache : List (String × List String)
  accessOrder : List String
  maxSize : Nat
  hits : Nat
  misses : Nat

/-- A fresh `TokenizationCache(tokenizer, maxSize)`. -/
def TokCache.init (tokenizer : String → List String) (maxSize : Nat) : TokCache :=
  ⟨tokenizer, [], [], maxSize, 0, 0⟩

/-- Embedding of `TokenizationCache.getTokens(text)`: empty text short-cut,
hit path (bump recency), miss path (compute, evict the head of
`accessOrder` when at capacity, insert). -/
def TokCache.getTokens (s : TokCache) (text : String) : List String × TokCache :=
  if text = "" then ([], s)
  else
    match s.cache.lookup text with
    | some tokens =>
      (tokens,
        { s with hits := s.hits + 1,
                 accessOrder := s.accessOrder.erase text ++ [text] })
    | none =>
      let tokens := s.tokenizer text
      let evict := s.cache.length ≥ s.maxSize
      let cache1 := if evict then
          match s.accessOrder with
          | [] => s.cache
          | oldest :: _ => eraseKey s.cache oldest
        else s.cache
      let order1 := if evict then s.accessOrder.tail else s.accessOrder
      (tokens,
        { s with misses := s.misses + 1,
                 cache := setKey cache1 text tokens,
                 accessOrder := order1 ++ [text] })

/-- Well-formedness of a cache state: the map keys are a permutation of the
recency array, recency entries are distinct, and the size is within the
capacity bound. -/
def TokCache.WF (s : TokCache) : Prop :=
  List.Perm (s.cache.map Prod.fst) s.accessOrder ∧ s.accessOrder.Nodup ∧
    s.cache.length ≤ s.maxSize

/-- State reached after tokenizing a list of fresh distinct keys in order
(no eviction yet). -/
def freshTokState (tok : String → List String) (maxSize : Nat)
    (ks : List String) : TokCache :=
  ⟨tok, ks.map (fun k => (k, tok k)), ks, maxSize, 0, ks.length⟩

/-! ## Compression : LZW-style line storage

JS strings are sequences of UTF-16 code units, so both directions are
modelled on `List Nat`.  `String.fromCharCode` reduces codes modulo
`2 ^ 16` and maps `undefined` (a missing dictionary entry) to `0`;
`decompress` returns `none` where the source returns `null`. -/

/-- The compressor dictionary: strings (unit sequences) to codes;
initially the 256 single-unit strings. -/
def lzwInitC : List (List Nat × Nat) := (List.range 256).map (fun i => ([i], i))

/-- Main loop of `Compression.compress`: `w` is the current window,
`result` the emitted codes so far. -/
def compressLoop : List Nat → List (List Nat × Nat) → Nat → List Nat → List Nat → List Nat
  | [], dict, _, w, result =>
    if w = [] then result else result ++ [(dict.lookup w).getD 0]
  | c :: rest, dict, dictSize, w, result =>
    let wc := w ++ [c]
    if (dict.lookup wc).isSome then
      compressLoop rest dict dictSize wc result
    else
      compressLoop rest ((wc, dictSize) :: dict) (dictSize + 1) [c]
        (result ++ [(dict.lookup w).getD 0])

/-- Embedding of `Compression.compress`: empty input gives `''`, strings of
fewer than 50 units are returned unchanged, otherwise LZW codes are emitted
as UTF-16 units (modulo `2 ^ 16`). -/
def Compression.compress (s : List Nat) : List Nat :=
  if s = [] then []
  else if s.length < 50 then s
  else (compressLoop s lzwInitC 256 [] []).map (fun code => code % 65536)

/-- The decompressor dictionary: codes to strings; initially the 256
single-unit strings. -/
def lzwInitD : List (Nat × List Nat) := (List.range 256).map (fun i => (i, [i]))

/-- Main loop of `Compression.decompress`; `none` is the `return null` of
the source (a code that is neither in the dictionary nor equal to
`dictSize`). -/
def decompressLoop : List Nat → List (Nat × List Nat) → Nat → List Nat → List Nat → Option (List Nat)
  | [], _, _, _, result => some result
  | k :: rest, dict, dictSize, w, result =>
    match dict.lookup k with
    | some entry =>
      decompressLoop rest ((dictSize, w ++ [entry.headD 0]) :: dict)
        (dictSize + 1) entry (result ++ entry)
    | none =>
      if k = dictSize then
        let entry := w ++ [w.headD 0]
        decompressLoop rest ((dictSize, w ++ [entry.headD 0]) :: dict)
          (dictSize + 1) entry (result ++ entry)
      else none

/-- Embedding of `Compression.decompress`: `''` for empty input, inputs of
fewer than 50 units with no unit at or above U+0100 are returned
unchanged, otherwise the LZW decode runs (with `null` for corrupt codes). -/
def Compression.decompress (c : List Nat) : Option (List Nat) :=
  if c = [] then some []
  else if c.length < 50 ∧ c.all (fun u => u < 256) then some c
  else
    match c with
    | [] => some []
    | k0 :: rest => decompressLoop rest lzwInitD 256 [k0] [k0]

/-- JS `String.prototype.split('\n')` on unit sequences (empty pieces are
kept). -/
def splitOnNewline (s : List Nat) : List (List Nat) :=
  s.foldr
    (fun u acc =>
      if u = 10 then [] :: acc
      else
        match acc with
        | [] => [[u]]
        | p :: ps => (u :: p) :: ps)
    [[]]

/-- The `originalLines` getter of `createEvent` in `log-processor.js`:
`decompressed ? decompressed.split('\n') : []` — both `null` and the empty
string degrade to an empty line list. -/
def originalLines (comp : List Nat) : List (List Nat) :=
  match Compression.decompress comp with
  | none => []
  | some d => if d = [] then [] else splitOnNewline d

/-! ## log-processor.js : eventBoundary

The five structural-marker regexes are embedded as decidable matchers on
the trimmed character list. -/

def isJsSpace (c : Char) : Bool :=
  c = ' ' || c = '\t' || c = '\n' || c = '\r' || c = '\x0b' || c = '\x0c'

/-- `String.prototype.trim()` (ASCII whitespace). -/
def jsTrim (s : String) : String :=
  String.mk (((s.toList.dropWhile isJsSpace).reverse.dropWhile isJsSpace).reverse)

/-- Matcher for `/^\d{4}-\d{2}-\d{2}/` (leading ISO date). -/
def matchesLeadingDate (cs : List Char) : Bool :=
  match cs with
  | d1 :: d2 :: d3 :: d4 :: h1 :: d5 :: d6 :: h2 :: d7 :: d8 :: _ =>
    d1.isDigit && d2.isDigit && d3.isDigit && d4.isDigit && h1 = '-' &&
      d5.isDigit && d6.isDigit && h2 = '-' && d7.isDigit && d8.isDigit
  | _ => false

def isFileLineChar (c : Char) : Bool :=
  c.isAlphanum || c = '_' || c = '.' || c = '-'

/-- Matcher for `/^[A-Za-z0-9_.-]+:\d+/` (`file:line` references): the
character class excludes `:`, so the leading run is forced and must be
followed by `:` and a digit. -/
def matchesFileLine (cs : List Char) : Bool :=
  let run := cs.takeWhile isFileLineChar
  run ≠ [] &&
    (match cs.drop run.length with
     | ':' :: d :: _ => d.isDigit
     | _ => false)

/-- Matcher for `/^\[[^\]]+\]/` (bracketed tags). -/
def matchesBracketTag (cs : List Char) : Bool :=
  match cs with
  | '[' :: rest =>
    let inner := rest.takeWhile (· ≠ ']')
    inner ≠ [] && (rest.drop inner.length).head? = some ']'
  | _ => false

def LEVEL_KEYWORDS : List (List Char) :=
  ["Error".toList, "Exception".toList, "Warning".toList, "WARN".toList,
   "INFO".toList, "DEBUG".toList, "TRACE".toList]

def isWordChar (c : Char) : Bool := c.isAlphanum || c = '_'

/-- One position of the `\b(Error|…)\b` search: a keyword starts here, the
previous character (if any) is not a word character, and neither is the
character right after the keyword. -/
def levelKwHere (prev : Option Char) (cs : List Char) : Bool :=
  LEVEL_KEYWORDS.any (fun kw =>
    kw.isPrefixOf cs &&
    (match prev with
     | none => true
     | some p => !(isWordChar p)) &&
    (match cs.drop kw.length with
     | [] => true
     | c :: _ => !(isWordChar c)))

def hasLevelKeywordAux : Option Char → List Char → Bool
  | prev, [] => levelKwHere prev []
  | prev, c :: rest => levelKwHere prev (c :: rest) || hasLevelKeywordAux (some c) rest

/-- Matcher for `/\b(Error|Exception|Warning|WARN|INFO|DEBUG|TRACE)\b/`
(unanchored search). -/
def hasLevelKeyword (cs : List Char) : Bool := hasLevelKeywordAux none cs

def HTTP_VERB_PREFIXES : List (List Char) :=
  ["GET".toList, "POST".toList, "PUT".toList, "DELETE".toList, "PATCH".toList]

/-- Matcher for `/^(GET|POST|PUT|DELETE|PATCH)\s/`. -/
def matchesHttpVerbLine (cs : List Char) : Bool :=
  HTTP_VERB_PREFIXES.any (fun v =>
    v.isPrefixOf cs &&
      (match cs.drop v.length with
       | c :: _ => isJsSpace c
       | [] => false))

/-- The disjunction of the five structural-marker tests of
`eventBoundary` (lines 311–315 of `log-processor.js`). -/
def isStructuralMarker (cs : List Char) : Bool :=
  matchesLeadingDate cs || matchesFileLine cs || matchesBracketTag cs ||
    hasLevelKeyword cs || matchesHttpVerbLine cs

/-- Embedding of `eventBoundary(line, hasCurrent)`. -/
def eventBoundary (line : String) (hasCurrent : Bool) : Bool :=
  let trimmed := (jsTrim line).toList
  if trimmed = [] then hasCurrent
  else if !hasCurrent then false
  else isStructuralMarker trimmed

/-! ## similarity-utils.js : tokenizeForSimilarity, jaccardSimilarity,
MinHash, LSHIndex

MinHash signature entries are `Option Nat`, with `none` standing for the
JS `Infinity` of an empty token set (`Infinity === Infinity` holds in JS,
matching `Option` equality). -/

def isLowerAlnum (c : Char) : Bool := c.isDigit || ('a' ≤ c && c ≤ 'z')

/-- Maximal runs of characters satisfying `p` (split on the complement and
drop empty pieces, as `split(/[^a-z0-9]+/).filter(Boolean)` does). -/
def splitRuns (p : Char → Bool) : List Char → List Char → List String
  | acc, [] => if acc = [] then [] else [String.mk acc.reverse]
  | acc, c :: rest =>
    if p c then splitRuns p (c :: acc) rest
    else if acc = [] then splitRuns p [] rest
    else String.mk acc.reverse :: splitRuns p [] rest

/-- Embedding of `tokenizeForSimilarity(str)`. -/
def tokenizeForSimilarity (s : String) : List String :=
  splitRuns isLowerAlnum [] (s.toList.map Char.toLower)

/-- Embedding of `jaccardSimilarity(tokensA, tokensB)` (plain, unweighted). -/
def jaccardSimilarity (tokensA tokensB : List String) : ℚ :=
  if tokensA = [] ∨ tokensB = [] then 0
  else
    let setA := jsSetDedup tokensA
    let setB := jsSetDedup tokensB
    let intersection := (setA.filter (fun t => setB.contains t)).length
    let uni := setA.length + setB.length - intersection
    if uni = 0 then 0 else (intersection : ℚ) / (uni : ℚ)

/-- The inner 31-bit string hash of `MinHash._hashToken`. -/
def jsStringHash (t : String) : Nat := t.toList.foldl (fun h c => hashStep h c.toNat) 0

/-- Hash-function coefficients `a = (seed + i*2 + 1) % p`. -/
def minHashA (seed i : Nat) : Nat := (seed + i * 2 + 1) % 4294967291

/-- Hash-function coefficients `b = (seed + i*2 + 2) % p`. -/
def minHashB (seed i : Nat) : Nat := (seed + i * 2 + 2) % 4294967291

/-- `MinHash._hashToken(token, hashFunc)`; exact for the default seed 0,
where `a·hash + b < 2^53` stays within float64 integer range. -/
def hashTokenMH (seed i : Nat) (token : String) : Nat :=
  (minHashA seed i * jsStringHash token + minHashB seed i) % 4294967291

/-- `MinHash.computeSignature(tokens)`: per-function minimum over all
tokens, `none` (Infinity) for an empty token list. -/
def computeSignature (numHashes seed : Nat) (tokens : List String) : List (Option Nat) :=
  (List.range numHashes).map (fun i => (tokens.map (hashTokenMH seed i)).min?)

structure LSHIndex where
  numBands : Nat
  bandSize : Nat
  bands : List (List (Nat × List Nat))
  items : List (Nat × List (Option Nat))
  hashSeed : Nat

def LSHIndex.new (numBands bandSize seed : Nat) : LSHIndex :=
  ⟨numBands, bandSize, List.replicate numBands [], [], seed⟩

/-- One step of `LSHIndex._hashBand`; an `Infinity` entry makes the JS
accumulator `Infinity`, and `Infinity & 0x7fffffff` is `0`. -/
def bandHashStep (h : Nat) (v : Option Nat) : Nat :=
  match v with
  | some value => hashStep h value
  | none => 0

/-- Embedding of `LSHIndex._hashBand(bandSignature, bandIndex)`. -/
def hashBand (seed : Nat) (bandSignature : List (Option Nat)) (bandIndex : Nat) : Nat :=
  bandSignature.foldl bandHashStep (seed + bandIndex)

/-- Embedding of `LSHIndex.add(itemId, signature)`; `none` models the
thrown length-mismatch error. -/
def LSHIndex.add (idx : LSHIndex) (itemId : Nat) (signature : List (Option Nat)) :
    Option LSHIndex :=
  if signature.length ≠ idx.numBands * idx.bandSize then none
  else
    some { idx with
      items := setKey idx.items itemId signature,
      bands := (List.range idx.numBands).map (fun band =>
        let start := band * idx.bandSize
        let bandSignature := (signature.drop start).take idx.bandSize
        let bh := hashBand idx.hashSeed bandSignature band
        let bandMap := idx.bands.getD band []
        setKey bandMap bh (((bandMap.lookup bh).getD []) ++ [itemId])) }

/-- Embedding of `LSHIndex._estimateSimilarity(sigA, sigB)`: fraction of
positions of `sigA` whose entries coincide (out-of-range positions of
`sigB` never coincide, as `x === undefined` is false). -/
def estimateSimilarity (sigA sigB : List (Option Nat)) : ℚ :=
  (((List.range sigA.length).filter (fun i => sigA.get? i = sigB.get? i)).length : ℚ)
    / (sigA.length : ℚ)

/-- The candidate-to-result loop of `LSHIndex.query`: look each candidate
up in `items` and pair it with its estimated similarity; a missing item
(which would be a thrown `TypeError` in the source) aborts with `none`. -/
def lookupSims (idx : LSHIndex) (sig : List (Option Nat)) :
    List Nat → Option (List (Nat × ℚ))
  | [] => some []
  | id :: rest =>
    match idx.items.lookup id with
    | none => none
    | some isig =>
      match lookupSims idx sig rest with
      | none => none
      | some ps => some ((id, estimateSimilarity sig isig) :: ps)

/-- Insertion step of a stable descending sort by a key, mirroring
`Array.prototype.sort((a, b) => keyB - keyA)`. -/
def insertByKeyDesc {α β : Type} [LinearOrder β] (key : α → β) (x : α) :
    List α → List α
  | [] => [x]
  | y :: ys => if key y < key x then x :: y :: ys else y :: insertByKeyDesc key x ys

/-- Stable descending sort by a key. -/
def sortByKeyDesc {α β : Type} [LinearOrder β] (key : α → β) (l : List α) : List α :=
  l.foldr (insertByKeyDesc key) []

/-- Embedding of `LSHIndex.query(signature, threshold)`: union candidates
over matching band buckets (in `Set` insertion order), keep those with
estimated similarity at least the threshold, sort descending. -/
def LSHIndex.query (idx : LSHIndex) (signature : List (Option Nat)) (threshold : ℚ) :
    Option (List (Nat × ℚ)) :=
  let candidates := (List.range idx.numBands).foldl (fun acc band =>
    let start := band * idx.bandSize
    let bandSignature := (signature.drop start).take idx.bandSize
    let bh := hashBand idx.hashSeed bandSignature band
    match (idx.bands.getD band []).lookup bh with
    | some bucket =>
      bucket.foldl (fun acc id => if acc.contains id then acc else acc ++ [id]) acc
    | none => acc) []
  match lookupSims idx signature candidates with
  | none => none
  | some pairs =>
    some (sortByKeyDesc (fun p => p.2) (pairs.filter (fun p => threshold ≤ p.2)))

/-! ## structural-patterns.js : pattern detection and structural signatures

Each `STRUCTURAL_PATTERNS` regex is embedded as a list of alternatives,
each alternative being a sequence of segments (literals and counted
character classes).  `RegExp.test` is existence of a match at some
position, which segment matching with all split points captures exactly. -/

inductive Segment where
  | lit : List Char → Segment
  | cls : (Char → Bool) → Nat → Option Nat → Segment

/-- Match a segment sequence at the start of `cs` (consuming a prefix). -/
def segMatchFrom : List Segment → List Char → Bool
  | [], _ => true
  | Segment.lit l :: rest, cs => l.isPrefixOf cs && segMatchFrom rest (cs.drop l.length)
  | Segment.cls p lo hi? :: rest, cs =>
    let run := (cs.takeWhile p).length
    let hi := match hi? with
      | none => run
      | some m => min m run
    (List.range (hi + 1)).any (fun k => decide (lo ≤ k) && segMatchFrom rest (cs.drop k))

/-- Unanchored search: some alternative matches at some position. -/
def searchAlts (alts : List (List Segment)) (cs : List Char) : Bool :=
  cs.tails.any (fun suffix => alts.any (fun segs => segMatchFrom segs suffix))

/-- JS `.` (any character except line terminators). -/
def jsDotChar (c : Char) : Bool := !(c = '\n' || c = '\r')

def notJsSpace (c : Char) : Bool := !(isJsSpace c)

/-- `/(GET|POST|PUT|DELETE|PATCH)\s+http[s]?:\/\/[^\s]+ (\d{3})/i` -/
def testHttpError (text : String) : Bool :=
  searchAlts
    ((["get", "post", "put", "delete", "patch"]).map (fun v =>
      [Segment.lit v.toList, Segment.cls isJsSpace 1 none,
       Segment.lit "http".toList, Segment.cls (fun c => c = 's') 0 (some 1),
       Segment.lit "://".toList, Segment.cls notJsSpace 1 none,
       Segment.lit " ".toList, Segment.cls Char.isDigit 3 (some 3)]))
    (text.toList.map Char.toLower)

/-- `/\s+at\s+[^\s]+\([^)]+\)/` (case-sensitive) -/
def testStacktraceJava (text : String) : Bool :=
  searchAlts
    [[Segment.cls isJsSpace 1 none, Segment.lit "at".toList,
      Segment.cls isJsSpace 1 none, Segment.cls notJsSpace 1 none,
      Segment.lit "(".toList, Segment.cls (fun c => c ≠ ')') 1 none,
      Segment.lit ")".toList]]
    text.toList

/-- `/\s+File\s+"[^"]+",\s+line\s+\d+,/i` -/
def testStacktracePython (text : String) : Bool :=
  searchAlts
    [[Segment.cls isJsSpace 1 none, Segment.lit "file".toList,
      Segment.cls isJsSpace 1 none, Segment.lit "\"".toList,
      Segment.cls (fun c => c ≠ '"') 1 none, Segment.lit "\",".toList,
      Segment.cls isJsSpace 1 none, Segment.lit "line".toList,
      Segment.cls isJsSpace 1 none, Segment.cls Char.isDigit 1 none,
      Segment.lit ",".toList]]
    (text.toList.map Char.toLower)

/-- `/\[(DEBUG|INFO|WARN|ERROR|FATAL|TRACE)\]\s+\d{4}-\d{2}-\d{2}/i` -/
def testLogLevelTimestamp (text : String) : Bool :=
  searchAlts
    ((["debug", "info", "warn", "error", "fatal", "trace"]).map (fun kw =>
      [Segment.lit ("[" ++ kw ++ "]").toList, Segment.cls isJsSpace 1 none,
       Segment.cls Char.isDigit 4 (some 4), Segment.lit "-".toList,
       Segment.cls Char.isDigit 2 (some 2), Segment.lit "-".toList,
       Segment.cls Char.isDigit 2 (some 2)]))
    (text.toList.map Char.toLower)

/-- `/[a-f0-9]{8}-[a-f0-9]{4}-[a-f0-9]{4}-[a-f0-9]{4}-[a-f0-9]{12}/i` -/
def testUuidReference (text : String) : Bool :=
  searchAlts
    [[Segment.cls isHexLower 8 (some 8), Segment.lit "-".toList,
      Segment.cls isHexLower 4 (some 4), Segment.lit "-".toList,
      Segment.cls isHexLower 4 (some 4), Segment.lit "-".toList,
      Segment.cls isHexLower 4 (some 4), Segment.lit "-".toList,
      Segment.cls isHexLower 12 (some 12)]]
    (text.toList.map Char.toLower)

/-- `/"error"\s*:\s*\{[^}]*"message"\s*:\s*"[^"]*"/i` -/
def testJsonErrorResponse (text : String) : Bool :=
  searchAlts
    [[Segment.lit "\"error\"".toList, Segment.cls isJsSpace 0 none,
      Segment.lit ":".toList, Segment.cls isJsSpace 0 none,
      Segment.lit "\x7b".toList, Segment.cls (fun c => c ≠ Char.ofNat 125) 0 none,
      Segment.lit "\"message\"".toList, Segment.cls isJsSpace 0 none,
      Segment.lit ":".toList, Segment.cls isJsSpace 0 none,
      Segment.lit "\"".toList, Segment.cls (fun c => c ≠ '"') 0 none,
      Segment.lit "\"".toList]]
    (text.toList.map Char.toLower)

/-- `/(SQLSTATE|ORA-|MySQL|PostgreSQL).*error/i` -/
def testDatabaseError (text : String) : Bool :=
  searchAlts
    ((["sqlstate", "ora-", "mysql", "postgresql"]).map (fun kw =>
      [Segment.lit kw.toList, Segment.cls jsDotChar 0 none,
       Segment.lit "error".toList]))
    (text.toList.map Char.toLower)

/-- `/(unauthorized|forbidden|authentication.*failed|invalid.*token)/i` -/
def testAuthError (text : String) : Bool :=
  searchAlts
    [[Segment.lit "unauthorized".toList],
     [Segment.lit "forbidden".toList],
     [Segment.lit "authentication".toList, Segment.cls jsDotChar 0 none,
      Segment.lit "failed".toList],
     [Segment.lit "invalid".toList, Segment.cls jsDotChar 0 none,
      Segment.lit "token".toList]]
    (text.toList.map Char.toLower)

/-- `/(connection.*refused|timeout|ECONNRESET|ENOTFOUND)/i` -/
def testNetworkError (text : String) : Bool :=
  searchAlts
    [[Segment.lit "connection".toList, Segment.cls jsDotChar 0 none,
      Segment.lit "refused".toList],
     [Segment.lit "timeout".toList],
     [Segment.lit "econnreset".toList],
     [Segment.lit "enotfound".toList]]
    (text.toList.map Char.toLower)

/-- `/(ENOENT|EACCES|EPERM|file.*not.*found)/i` -/
def testFileSystemError (text : String) : Bool :=
  searchAlts
    [[Segment.lit "enoent".toList],
     [Segment.lit "eacces".toList],
     [Segment.lit "eperm".toList],
     [Segment.lit "file".toList, Segment.cls jsDotChar 0 none,
      Segment.lit "not".toList, Segment.cls jsDotChar 0 none,
      Segment.lit "found".toList]]
    (text.toList.map Char.toLower)

structure SPattern where
  name : String
  category : String
  priority : Nat
  test : String → Bool

def STRUCTURAL_PATTERNS : List SPattern :=
  [⟨"http_error", "HTTP", 1, testHttpError⟩,
   ⟨"stacktrace_java", "StackTrace", 1, testStacktraceJava⟩,
   ⟨"stacktrace_python", "StackTrace", 1, testStacktracePython⟩,
   ⟨"log_level_timestamp", "LogEntry", 2, testLogLevelTimestamp⟩,
   ⟨"uuid_reference", "UUID", 3, testUuidReference⟩,
   ⟨"json_error_response", "JSON", 2, testJsonErrorResponse⟩,
   ⟨"database_error", "Database", 1, testDatabaseError⟩,
   ⟨"auth_error", "Authentication", 1, testAuthError⟩,
   ⟨"network_error", "Network", 1, testNetworkError⟩,
   ⟨"file_system_error", "FileSystem", 1, testFileSystemError⟩]

/-- Embedding of `detectStructuralPatterns(text)`. -/
def detectStructuralPatterns (text : String) : List SPattern :=
  STRUCTURAL_PATTERNS.filter (fun p => p.test text)

/-- Scanner for JS `String.prototype.replace` with a global regex:
`matchAt prev cs` returns the length the regex matches at the current
position (given the previous original character, for `\b`), the
placeholder is substituted and scanning resumes after the match.  The
fuel is the input length; every match consumes at least one character. -/
def replaceScanF (matchAt : Option Char → List Char → Option Nat)
    (placeholder : List Char) : Nat → Option Char → List Char → List Char
  | 0, _, cs => cs
  | _ + 1, _, [] => []
  | fuel + 1, prev, c :: rest =>
    match matchAt prev (c :: rest) with
    | some len =>
      if len = 0 then c :: replaceScanF matchAt placeholder fuel (some c) rest
      else placeholder ++ replaceScanF matchAt placeholder fuel
        (some (((c :: rest).take len).getLastD c)) ((c :: rest).drop len)
    | none => c :: replaceScanF matchAt placeholder fuel (some c) rest

def jsReplaceAll (matchAt : Option Char → List Char → Option Nat)
    (placeholder : List Char) (cs : List Char) : List Char :=
  replaceScanF matchAt placeholder cs.length none cs

/-- Shape check for a 36-character (already lower-cased) UUID. -/
def uuidShape (l : List Char) : Bool :=
  l.length = 36 && (l.take 8).all isHexLower && l.get? 8 = some '-' &&
    ((l.drop 9).take 4).all isHexLower && l.get? 13 = some '-' &&
    ((l.drop 14).take 4).all isHexLower && l.get? 18 = some '-' &&
    ((l.drop 19).take 4).all isHexLower && l.get? 23 = some '-' &&
    (l.drop 24).all isHexLower

/-- Match of `/[a-f0-9]{8}-…-[a-f0-9]{12}/gi` at the current position. -/
def matchUuidAt (_ : Option Char) (cs : List Char) : Option Nat :=
  if uuidShape ((cs.take 36).map Char.toLower) then some 36 else none

/-- Match of the timestamp regex
`/\d{4}-\d{2}-\d{2}[T ]\d{2}:\d{2}:\d{2}(?:\.\d{3})?Z?/g` (greedy on the
optional fraction and zone). -/
def matchTimestampAt (_ : Option Char) (cs : List Char) : Option Nat :=
  let fixedOk :=
    (cs.take 4).length = 4 && (cs.take 4).all Char.isDigit &&
    cs.get? 4 = some '-' &&
    ((cs.drop 5).take 2).length = 2 && ((cs.drop 5).take 2).all Char.isDigit &&
    cs.get? 7 = some '-' &&
    ((cs.drop 8).take 2).length = 2 && ((cs.drop 8).take 2).all Char.isDigit &&
    (cs.get? 10 = some 'T' || cs.get? 10 = some ' ') &&
    ((cs.drop 11).take 2).length = 2 && ((cs.drop 11).take 2).all Char.isDigit &&
    cs.get? 13 = some ':' &&
    ((cs.drop 14).take 2).length = 2 && ((cs.drop 14).take 2).all Char.isDigit &&
    cs.get? 16 = some ':' &&
    ((cs.drop 17).take 2).length = 2 && ((cs.drop 17).take 2).all Char.isDigit
  if !fixedOk then none
  else
    let fracLen :=
      if cs.get? 19 = some '.' && ((cs.drop 20).take 3).length = 3 &&
          ((cs.drop 20).take 3).all Char.isDigit then 4 else 0
    let zoneLen := if cs.get? (19 + fracLen) = some 'Z' then 1 else 0
    some (19 + fracLen + zoneLen)

/-- Candidate lengths for `\d{1,3}` in greedy (descending) order. -/
def ipRunLens (cs : List Char) : List Nat :=
  let r := (cs.takeWhile Char.isDigit).length
  (if 3 ≤ r then [3] else []) ++ (if 2 ≤ r then [2] else []) ++
    (if 1 ≤ r then [1] else [])

/-- Match of `/\b\d{1,3}\.\d{1,3}\.\d{1,3}\.\d{1,3}\b/g` at the current
position (with the word boundaries checked against the neighbouring
characters). -/
def matchIpAt (prev : Option Char) (cs : List Char) : Option Nat :=
  if (match prev with
      | some p => isWordChar p
      | none => false) then none
  else
    (ipRunLens cs).findSome? (fun d1 =>
      match cs.drop d1 with
      | '.' :: cs1 =>
        (ipRunLens cs1).findSome? (fun d2 =>
          match cs1.drop d2 with
          | '.' :: cs2 =>
            (ipRunLens cs2).findSome? (fun d3 =>
              match cs2.drop d3 with
              | '.' :: cs3 =>
                (ipRunLens cs3).findSome? (fun d4 =>
                  let total := d1 + 1 + d2 + 1 + d3 + 1 + d4
                  match (cs3.drop d4).head? with
                  | some c => if isWordChar c then none else some total
                  | none => some total)
              | _ => none)
          | _ => none)
      | _ => none)

/-- Match of `/https?:\/\/[^\s]+/g` at the current position. -/
def matchUrlAt (_ : Option Char) (cs : List Char) : Option Nat :=
  let tryFrom : Nat → Option Nat := fun headLen =>
    let rest := cs.drop headLen
    let run := (rest.takeWhile notJsSpace).length
    if 1 ≤ run then some (headLen + run) else none
  if "https://".toList.isPrefixOf cs then tryFrom 8
  else if "http://".toList.isPrefixOf cs then tryFrom 7
  else none

/-- Match of `/\d+/g` at the current position. -/
def matchNumberAt (_ : Option Char) (cs : List Char) : Option Nat :=
  let run := (cs.takeWhile Char.isDigit).length
  if 1 ≤ run then some run else none

/-- Match of `/"[^"]*"/g` at the current position. -/
def matchDQuoteAt (_ : Option Char) (cs : List Char) : Option Nat :=
  match cs with
  | '"' :: rest =>
    let run := (rest.takeWhile (fun c => c ≠ '"')).length
    if (rest.drop run).head? = some '"' then some (run + 2) else none
  | _ => none

/-- Match of the single-quote string regex (SQL strings) at the current
position. -/
def matchSQuoteAt (_ : Option Char) (cs : List Char) : Option Nat :=
  match cs with
  | q :: rest =>
    if q = Char.ofNat 39 then
      let run := (rest.takeWhile (fun c => c ≠ Char.ofNat 39)).length
      if (rest.drop run).head? = some (Char.ofNat 39) then some (run + 2) else none
    else none
  | _ => none

/-- Embedding of `extractStructuralSignature(text)`: the seven global
replaces applied in source order. -/
def extractStructuralSignature (text : String) : String :=
  let s1 := jsReplaceAll matchUuidAt "\x7bUUID\x7d".toList text.toList
  let s2 := jsReplaceAll matchTimestampAt "\x7bTIMESTAMP\x7d".toList s1
  let s3 := jsReplaceAll matchIpAt "\x7bIP\x7d".toList s2
  let s4 := jsReplaceAll matchUrlAt "\x7bURL\x7d".toList s3
  let s5 := jsReplaceAll matchNumberAt "\x7bNUMBER\x7d".toList s4
  let s6 := jsReplaceAll matchDQuoteAt "\x7bSTRING\x7d".toList s5
  let s7 := jsReplaceAll matchSQuoteAt "\x7bSTRING\x7d".toList s6
  String.mk s7

def sigElementChar (c : Char) : Bool :=
  c.isAlphanum || c = Char.ofNat 123 || c = Char.ofNat 125 || c = '_' || c = '-'

/-- Embedding of `calculateStructuralSimilarity(textA, textB)`. -/
def calculateStructuralSimilarity (textA textB : String) : ℚ :=
  let patternsA := detectStructuralPatterns textA
  let patternsB := detectStructuralPatterns textB
  let highA := (patternsA.filter (fun p => p.priority = 1)).map SPattern.name
  let highB := (patternsB.filter (fun p => p.priority = 1)).map SPattern.name
  let commonHigh := highA.filter (fun n => highB.contains n)
  if highA ≠ [] ∧ highB ≠ [] ∧ commonHigh ≠ [] then
    (9 / 10 : ℚ) + (commonHigh.length : ℚ) * (5 / 100)
  else
    let catsA := jsSetDedup (patternsA.map SPattern.category)
    let catsB := jsSetDedup (patternsB.map SPattern.category)
    let commonCats := catsA.filter (fun c => catsB.contains c)
    if commonCats ≠ [] then (7 / 10 : ℚ) + (commonCats.length : ℚ) * (1 / 10)
    else
      let sigA := extractStructuralSignature textA
      let sigB := extractStructuralSignature textB
      if sigA = sigB then (8 / 10 : ℚ)
      else
        let elementsA := (splitRuns sigElementChar [] sigA.toList).filter
          (fun e => e.toList.contains (Char.ofNat 123))
        let elementsB := (splitRuns sigElementChar [] sigB.toList).filter
          (fun e => e.toList.contains (Char.ofNat 123))
        let commonElements := elementsA.filter (fun e => elementsB.contains e)
        let maxElements := max elementsA.length elementsB.length
        if 0 < maxElements then
          ((commonElements.length : ℚ) / (maxElements : ℚ)) * (6 / 10)
        else 0

/-- Embedding of `shouldClusterByStructure(textA, textB)`. -/
def shouldClusterByStructure (textA textB : String) : Bool :=
  let structuralSim := calculateStructuralSimilarity textA textB
  if (9 / 10 : ℚ) ≤ structuralSim then true
  else if (8 / 10 : ℚ) ≤ structuralSim then
    (detectStructuralPatterns textA).any (fun p =>
      p.priority = 1 &&
        (detectStructuralPatterns textB).any (fun pb =>
          pb.name = p.name && pb.priority = 1))
  else false

/-- A small concrete LSH index (2 bands of 1 row) with two stored
signatures, used as the query witness. -/
def idxW : LSHIndex :=
  ((((LSHIndex.new 2 1 0).add 1 [some 5, some 7]).bind
    (fun i => i.add 2 [some 5, some 9])).getD (LSHIndex.new 2 1 0))

/-! ## core/clustering-strategy.js + core/abstract-clustering.js

`LogEvent`s carry the fields the clustering engine reads; clusters are the
objects `createNewCluster` builds.  The JS `Map` of clusters is an
insertion-ordered association list; the strategy's async
`findOrCreateClusterKey` is abstracted as a key function (the engine is
generic over strategies).  The batch loop processes events strictly in
order (its `setTimeout` yield has no semantic effect), so it is a fold. -/

structure Event where
  signature : String
  primaryCategory : String
  templateLines : List String
  vars : List (String × List String)
  deriving DecidableEq

def dfltEvent : Event := ⟨"", "", [], []⟩

/-- `getEventCategory(event)`: `event?.primaryCategory || 'Other'`. -/
def getEventCategory (e : Event) : String :=
  if e.primaryCategory = "" then "Other" else e.primaryCategory

/-- `getEventKey(event)`: the signature, or the joined template lines. -/
def getEventKey (e : Event) : String :=
  if e.signature = "" then String.intercalate "\n" e.templateLines else e.signature

/-- JS `Set.add`. -/
def addToSetStr (s : List String) (v : String) : List String :=
  if s.contains v then s else s ++ [v]

/-- Embedding of `mergeEventVariables(clusterVariables, eventVariables)`. -/
def mergeEventVariables (cv ev : List (String × List String)) :
    List (String × List String) :=
  ev.foldl (fun cv p => setKey cv p.1 (p.2.foldl addToSetStr ((cv.lookup p.1).getD []))) cv

structure Cluster where
  signature : String
  templateLines : List String
  events : List Event
  vars : List (String × List String)
  categoryCounts : List (String × Nat)
  firstEvent : Option Event
  primaryCategory : String
  similarityLevel : Option Nat
  deriving DecidableEq

/-- Embedding of `createNewCluster(key, event)` (the flat engine's cluster
shape; `similarityLevel` is only set by the hierarchical converter). -/
def createNewCluster (key : String) (e : Event) : Cluster :=
  ⟨key, e.templateLines, [], [], [], some e, getEventCategory e, none⟩

/-- One iteration of the event loop in `buildClustersAbstract`: find or
create the cluster key, create the cluster on first use, push the event,
merge variables, bump the category count and promote the primary category
when strictly overtaken. -/
def processEvent (keyFn : List (String × Cluster) → Event → String)
    (clusters : List (String × Cluster)) (event : Event) : List (String × Cluster) :=
  let clusterKey := keyFn clusters event
  let clusters1 :=
    if (clusters.lookup clusterKey).isSome then clusters
    else clusters ++ [(clusterKey, createNewCluster clusterKey event)]
  match clusters1.lookup clusterKey with
  | none => clusters1
  | some cluster =>
    let categoryName := getEventCategory event
    let newCounts := setKey cluster.categoryCounts categoryName
      ((cluster.categoryCounts.lookup categoryName).getD 0 + 1)
    let currentPrimaryCount := (newCounts.lookup cluster.primaryCategory).getD 0
    let candidateCount := (newCounts.lookup categoryName).getD 0
    let newPrimary :=
      if currentPrimaryCount < candidateCount then categoryName
      else cluster.primaryCategory
    setKey clusters1 clusterKey
      { cluster with
        events := cluster.events ++ [event],
        vars := mergeEventVariables cluster.vars event.vars,
        categoryCounts := newCounts,
        primaryCategory := newPrimary }

/-- Embedding of `buildClustersAbstract(events, strategy)`: fold the event
loop and sort the cluster values by descending size. -/
def buildClustersAbstract (keyFn : List (String × Cluster) → Event → String)
    (events : List Event) : List Cluster :=
  sortByKeyDesc (fun c => c.events.length)
    ((events.foldl (processEvent keyFn) []).map Prod.snd)

/-! ## hierarchical-clusterer.js -/

structure AdaptiveThresholds where
  distanceThreshold : ℚ
  distanceStrict : ℚ
  jaccardThreshold : ℚ
  avgLength : ℚ
  totalEvents : Nat

structure HCluster where
  events : List Event
  signature : String
  primaryCategory : String
  templateLines : List String
  vars : List (String × List String)
  similarityLevel : Nat

/-- The `HierarchicalCluster` constructor. -/
def HCluster.new (e : Event) : HCluster :=
  ⟨[e], e.signature, e.primaryCategory, e.templateLines, e.vars, 1⟩

/-- Embedding of `HierarchicalCluster.addEvent(event, similarityLevel)`
(the copy-on-write indirection has no observable effect on the merged
variable map). -/
def HCluster.addEvent (c : HCluster) (e : Event) (level : Nat) : HCluster :=
  { c with
    events := c.events ++ [e],
    similarityLevel := if c.similarityLevel < level then level else c.similarityLevel,
    vars := mergeEventVariables c.vars e.vars }

/-- Embedding of `HierarchicalCluster.calculateSimilarity(event,
adaptiveThresholds)`. -/
def HCluster.calculateSimilarity (c : HCluster) (e : Event)
    (th : AdaptiveThresholds) : ℚ :=
  if shouldClusterByStructure c.signature e.signature then (9 / 10 : ℚ)
  else
    let structuralSim := calculateStructuralSimilarity c.signature e.signature
    if (8 / 10 : ℚ) ≤ structuralSim then (9 / 10 : ℚ)
    else if (6 / 10 : ℚ) ≤ structuralSim then (7 / 10 : ℚ)
    else
      let dr := normalizedLevenshtein c.signature.toList e.signature.toList
      if th.distanceThreshold < dr then 0
      else
        let jac := jaccardSimilarity (tokenizeForSimilarity c.signature)
          (tokenizeForSimilarity e.signature)
        let distanceScore := max 0 (1 - dr)
        distanceScore * (6 / 10) + jac * (4 / 10)

/-- Embedding of `getSimilarityThreshold(level)` (the `Math.min` of the
per-level distance and Jaccard thresholds from `HIERARCHICAL_CONFIG`). -/
def getSimilarityThreshold (level : Nat) : ℚ :=
  match level with
  | 1 => min (15 / 100 : ℚ) (85 / 100)
  | 2 => min (25 / 100 : ℚ) (7 / 10)
  | 3 => min (4 / 10 : ℚ) (1 / 2)
  | _ => (8 / 10 : ℚ)

/-- Embedding of `HierarchicalCluster.shouldAccept(event, similarityLevel,
adaptiveThresholds)`. -/
def HCluster.shouldAccept (c : HCluster) (e : Event) (level : Nat)
    (th : AdaptiveThresholds) : Bool :=
  if level < c.similarityLevel then false
  else decide (getSimilarityThreshold level ≤ c.calculateSimilarity e th)

/-- Embedding of `clusterAtLevelLSH`: events are identified by their index
(JS object identity); the fuel equals the initial unassigned count, and
every iteration removes at least the seed, so the fuel never runs out.
Lookups into `allEvents`/`eventSigs` and the LSH query always succeed for
ids of this run; the defaults model the unreachable branches. -/
def clusterAtLevelLSH (allEvents : List (Nat × Event)) (level : Nat)
    (th : AdaptiveThresholds) (lsh : LSHIndex)
    (eventSigs : List (Nat × List (Option Nat))) :
    Nat → List Nat → List Nat → List HCluster × List Nat
  | 0, _, processed => ([], processed)
  | fuel + 1, unassigned, processed =>
    match unassigned with
    | [] => ([], processed)
    | seedId :: rest =>
      let seedEvent := (allEvents.lookup seedId).getD dfltEvent
      let cluster0 := HCluster.new seedEvent
      let processed1 := processed ++ [seedId]
      let seedSig := (eventSigs.lookup seedId).getD []
      let threshold := getSimilarityThreshold level
      let queryRes := (lsh.query seedSig threshold).getD []
      let candidates := (queryRes.map Prod.fst).filter (fun id =>
        rest.contains id &&
          cluster0.shouldAccept ((allEvents.lookup id).getD dfltEvent) level th)
      let cluster1 := candidates.foldl
        (fun c id => c.addEvent ((allEvents.lookup id).getD dfltEvent) level) cluster0
      let rest1 := candidates.foldl (fun l id => l.erase id) rest
      let res := clusterAtLevelLSH allEvents level th lsh eventSigs fuel rest1
        (processed1 ++ candidates)
      (cluster1 :: res.1, res.2)

/-- Embedding of `performHierarchicalClustering(events,
adaptiveThresholds)`: MinHash signatures (100 hashes, seed 0), a 20×5 LSH
index, then three passes of decreasing strictness over the unassigned
remainder; `none` models the (unreachable) signature-length error of
`LSHIndex.add`. -/
def performHierarchicalClustering (events : List Event)
    (th : AdaptiveThresholds) : Option (List HCluster) :=
  let allEvents := events.enum
  let eventSigs := allEvents.map (fun p =>
    (p.1, computeSignature 100 0 (tokenizeForSimilarity p.2.signature)))
  match eventSigs.foldlM (fun idx p => idx.add p.1 p.2) (LSHIndex.new 20 5 0) with
  | none => none
  | some lsh =>
    let ids := allEvents.map Prod.fst
    let level1 := clusterAtLevelLSH allEvents 1 th lsh eventSigs ids.length ids []
    let remaining2 := ids.filter (fun id => !(level1.2.contains id))
    let level2 := clusterAtLevelLSH allEvents 2 th lsh eventSigs
      remaining2.length remaining2 level1.2
    let remaining3 := ids.filter (fun id => !(level2.2.contains id))
    let level3 := clusterAtLevelLSH allEvents 3 th lsh eventSigs
      remaining3.length remaining3 level2.2
    some (level1.1 ++ level2.1 ++ level3.1)

/-- Embedding of `convertHierarchicalToStandardClusters`. -/
def convertHierarchicalToStandardClusters (hcs : List HCluster) : List Cluster :=
  hcs.map (fun c =>
    let categoryCounts := c.events.foldl
      (fun m e => setKey m (getEventCategory e)
        ((m.lookup (getEventCategory e)).getD 0 + 1)) []
    ⟨c.signature, c.templateLines, c.events, c.vars, categoryCounts,
      c.events.head?, c.primaryCategory, some c.similarityLevel⟩)

/-- Embedding of `buildClustersHierarchical(events, adaptiveThresholds)`. -/
def buildClustersHierarchical (events : List Event) (th : AdaptiveThresholds) :
    Option (List Cluster) :=
  (performHierarchicalClustering events th).map convertHierarchicalToStandardClusters

/-! ## utils/input-validator.js + cluster-builder-no-embeddings.js -/

structure ValidationResult where
  isValid : Bool
  errors : List String

/-- `INPUT_LIMITS.MAX_EVENTS`. -/
def MAX_EVENTS : Nat := 50000

/-- `INPUT_LIMITS.MAX_EVENT_LENGTH_CHARS`. -/
def MAX_EVENT_LENGTH_CHARS : Nat := 1000000

/-- The `event.signature || templateLines.join('')` fallback used by the
validator. -/
def validationSignature (e : Event) : String :=
  if e.signature = "" then String.intercalate "" e.templateLines else e.signature

/-- Embedding of `InputValidator.validateEvents(events)` (the non-array
and non-object cases are unrepresentable in the typed model). -/
def validateEvents (events : List Event) : ValidationResult :=
  if events.length = 0 then ⟨false, ["Events array cannot be empty"]⟩
  else
    let sizeErrors :=
      if MAX_EVENTS < events.length then
        ["Event count (" ++ toString events.length ++ ") exceeds maximum (" ++
          toString MAX_EVENTS ++ ")"]
      else []
    let perEventErrors := events.enum.foldl (fun acc p =>
      let signature := validationSignature p.2
      let acc1 :=
        if signature = "" then
          acc ++ ["Event " ++ toString p.1 ++ " missing signature or templateLines"]
        else acc
      if signature ≠ "" ∧ MAX_EVENT_LENGTH_CHARS < signature.length then
        acc1 ++ ["Event " ++ toString p.1 ++ " signature exceeds maximum length (" ++
          toString MAX_EVENT_LENGTH_CHARS ++ " chars)"]
      else acc1) []
    let errors := sizeErrors ++ perEventErrors
    ⟨errors.isEmpty, errors⟩

/-- Embedding of `calculateAdaptiveThresholds(events)` with the constants
of `config-clustering.js` (`textBased.adaptive`). -/
def calculateAdaptiveThresholds (events : List Event) : AdaptiveThresholds :=
  let totalEvents := events.length
  let avgLength : ℚ :=
    ((events.map (fun e => (validationSignature e).length)).sum : ℚ) / (totalEvents : ℚ)
  let sizeMult : ℚ :=
    if totalEvents ≤ 50 then (12 / 10 : ℚ)
    else if 200 ≤ totalEvents then (4 / 10 : ℚ)
    else 1
  let lengthMult : ℚ := if avgLength ≤ 20 then (13 / 10 : ℚ) else (7 / 10 : ℚ)
  let distanceMultiplier := sizeMult * lengthMult
  let jaccardMultiplier := sizeMult * lengthMult
  ⟨(1 / 100 : ℚ) * distanceMultiplier, (1 / 1000 : ℚ) * distanceMultiplier,
    (99 / 100 : ℚ) * jaccardMultiplier, avgLength, totalEvents⟩

/-- `CLUSTERING_CONFIG.features.hierarchicalClustering` (disabled). -/
def hierarchicalClusteringFlag : Bool := false

/-- Embedding of `buildClustersNoEmbeddings(events)`: pre-flight
validation (an `Except.error` models the thrown `Invalid input` error,
raised before thresholds or clusters are computed), then adaptive
thresholds, then the strategy-driven engine.  The strategy construction is
abstracted as a key function of the thresholds. -/
def buildClustersNoEmbeddings
    (strategyKey : AdaptiveThresholds → List (String × Cluster) → Event → String)
    (events : List Event) : Except (List String) (List Cluster) :=
  let validation := validateEvents events
  if validation.isValid = false then Except.error validation.errors
  else
    let adaptiveThresholds := calculateAdaptiveThresholds events
    if hierarchicalClusteringFlag then
      match buildClustersHierarchical events adaptiveThresholds with
      | some cs => Except.ok cs
      | none => Except.error ["Signature length mismatch"]
    else
      Except.ok (buildClustersAbstract (strategyKey adaptiveThresholds) events)

/-- Concrete thresholds for the hierarchical counterexamples (the
structural-similarity path makes them irrelevant there). -/
def exTh : AdaptiveThresholds := ⟨1 / 100, 1 / 1000, 99 / 100, 0, 3⟩

/-- Counterexample events for C1: one isolated signature and two identical
ones, in that order. -/
def c1Events : List Event :=
  [⟨"zzz", "A", [], []⟩, ⟨"abc", "A", [], []⟩, ⟨"abc", "A", [], []⟩]

/-- Counterexample events for C3: three identical signatures whose seed
has category "A" while the majority has category "B". -/
def c3Events : List Event :=
  [⟨"abc", "A", [], []⟩, ⟨"abc", "B", [], []⟩, ⟨"abc", "B", [], []⟩]

/-- A concrete strategy key function (exact signature match) for the C8
witness. -/
def skW : AdaptiveThresholds → List (String × Cluster) → Event → String :=
  fun _ _ e => e.signature

/-- A concrete valid event for the C8 witness. -/
def evW : Event := ⟨"a", "X", [], []⟩

/-- The spec's invariant, in the spec's words (for comparison with the
code): the cluster's primary category has maximal count in the
category-count map. -/
def specPrimaryIsArgmax (c : Cluster) : Prop :=
  ∀ cat : String,
    (c.categoryCounts.lookup cat).getD 0
      ≤ (c.categoryCounts.lookup c.primaryCategory).getD 0

/-- An all-empty cluster, used as a list-access default. -/
def dfltCluster : Cluster := ⟨"", [], [], [], [], none, "", none⟩

/-- The concrete hierarchical output on the category counterexample run. -/
def c3Out : List Cluster := (buildClustersHierarchical c3Events exTh).getD []

theorem levRec_nil_left (ys : List Char) : levRec [] ys = ys.length := by
  simp [levRec]

theorem levRec_nil_right (xs : List Char) : levRec xs [] = xs.length := by
  cases xs <;> simp [levRec]

theorem levRec_self (xs : List Char) : levRec xs xs = 0 := by
  induction xs with
  | nil => simp [levRec]
  | cons x xs ih => simp [levRec, ih, levCost]

theorem levRec_symm (xs ys : List Char) : levRec xs ys = levRec ys xs := by
  induction xs generalizing ys with
  | nil => cases ys <;> simp [levRec]
  | cons x xs ihx =>
    induction ys with
    | nil => simp [levRec]
    | cons y ys ihy =>
      have hc : levCost x y = levCost y x := by
        simp only [levCost]
        by_cases h : x = y <;> simp [h, Ne.symm, eq_comm]
      rw [levRec, levRec, ihx (y :: ys), ihx ys, ihy, hc]
      omega

theorem levRec_le_max (xs ys : List Char) : levRec xs ys ≤ max xs.length ys.length := by
  induction xs generalizing ys with
  | nil => simp [levRec]
  | cons x xs ih =>
    cases ys with
    | nil => simp [levRec]
    | cons y ys =>
      have h3 := ih ys
      have hcost : levCost x y ≤ 1 := by
        simp only [levCost]; split <;> omega
      have : levRec (x :: xs) (y :: ys) ≤ levRec xs ys + levCost x y := by
        rw [levRec]; omega
      simp only [List.length_cons]
      omega

/-- Arithmetic core of the last-character recurrence: both sides are minima
over the same multiset of nine terms. -/
theorem minShuffle (a1 a2 a3 a4 a5 a6 a7 a8 a9 c d : ℕ) :
    min (min (min (min (a1 + 1) (a2 + 1)) (a3 + c) + 1)
          (min (min (a4 + 1) (a5 + 1)) (a6 + c) + 1))
        (min (min (a7 + 1) (a8 + 1)) (a9 + c) + d)
      = min (min (min (min (a1 + 1) (a4 + 1)) (a7 + d) + 1)
          (min (min (a2 + 1) (a5 + 1)) (a8 + d) + 1))
        (min (min (a3 + 1) (a6 + 1)) (a9 + d) + c) := by
  simp only [← min_add_add_right]
  rw [le_antisymm_iff]
  constructor <;> · simp only [le_min_iff, min_le_iff]; omega

theorem levRec_cons_cons (x : Char) (xs : List Char) (y : Char) (ys : List Char) :
    levRec (x :: xs) (y :: ys) =
      min (min (levRec xs (y :: ys) + 1) (levRec (x :: xs) ys + 1))
        (levRec xs ys + levCost x y) := by
  rw [levRec]

/-- The recursive edit distance also satisfies the last-character recurrence
that the prefix DP uses.  Proved by simultaneous induction; after unfolding
one `cons` layer and the inductive hypotheses, the two sides are minima of
the same multiset of terms. -/
theorem levRec_append : ∀ (xs ys : List Char) (x y : Char),
    levRec (xs ++ [x]) (ys ++ [y]) =
      min (min (levRec xs (ys ++ [y]) + 1) (levRec (xs ++ [x]) ys + 1))
        (levRec xs ys + levCost x y) := by
  intro xs
  induction xs with
  | nil =>
    intro ys
    induction ys with
    | nil => intro x y; simp [levRec]
    | cons y' ys ihy =>
      intro x y
      have h1 := ihy x y
      simp only [List.nil_append] at h1 ⊢
      rw [List.cons_append, levRec_cons_cons x [] y' (ys ++ [y]), h1,
        levRec_cons_cons x [] y' ys]
      simp only [levRec_nil_left, levRec_nil_right, List.length_append,
        List.length_cons, List.length_nil]
      omega
  | cons x' xs ihx =>
    intro ys
    induction ys with
    | nil =>
      intro x y
      have h1 := ihx [] x y
      simp only [List.nil_append] at h1 ⊢
      rw [List.cons_append, levRec_cons_cons x' (xs ++ [x]) y [], h1,
        levRec_cons_cons x' xs y []]
      simp only [levRec_nil_left, levRec_nil_right, List.length_append,
        List.length_cons, List.length_nil]
      omega
    | cons y' ys ihy =>
      intro x y
      have hT1 : levRec (xs ++ [x]) (y' :: (ys ++ [y])) =
          min (min (levRec xs (y' :: ys ++ [y]) + 1) (levRec (xs ++ [x]) (y' :: ys) + 1))
            (levRec xs (y' :: ys) + levCost x y) := by
        have := ihx (y' :: ys) x y
        simpa using this
      have hT2 := ihy x y
      have hT3 := ihx ys x y
      simp only [List.cons_append] at hT1 hT2 hT3 ⊢
      rw [levRec_cons_cons x' (xs ++ [x]) y' (ys ++ [y]), hT1]
      rw [hT2, hT3]
      rw [levRec_cons_cons x' xs y' (ys ++ [y]),
        levRec_cons_cons x' (xs ++ [x]) y' ys,
        levRec_cons_cons x' xs y' ys]
      exact minShuffle _ _ _ _ _ _ _ _ _ _ _

/-- Edit distance is invariant under reversing both arguments; with the
last-character recurrence this is a double induction. -/
theorem levRec_reverse : ∀ (xs ys : List Char),
    levRec xs.reverse ys.reverse = levRec xs ys := by
  intro xs
  induction xs with
  | nil => intro ys; simp [levRec_nil_left]
  | cons x xs ihx =>
    intro ys
    induction ys with
    | nil => simp [levRec_nil_right]
    | cons y ys ihy =>
      rw [List.reverse_cons, List.reverse_cons, levRec_append, levRec]
      rw [← List.reverse_cons y ys, ihx (y :: ys)]
      rw [← List.reverse_cons x xs, ihy, ihx ys]

theorem levRowAux_spec (c : Char) (ra : List Char) :
    ∀ (bs pre : List Char),
      levRowAux c bs (rowSpecAux ra pre bs) (levRec ra pre) (levRec (ra ++ [c]) pre)
        = rowSpecAux (ra ++ [c]) pre bs := by
  intro bs
  induction bs with
  | nil => intro pre; simp [rowSpecAux, levRowAux]
  | cons y bs ih =>
    intro pre
    show levRowAux c (y :: bs)
        (levRec ra (pre ++ [y]) :: rowSpecAux ra (pre ++ [y]) bs)
        (levRec ra pre) (levRec (ra ++ [c]) pre) = _
    rw [levRowAux]
    have hcur : min (min (levRec (ra ++ [c]) pre + 1) (levRec ra (pre ++ [y]) + 1))
        (levRec ra pre + levCost c y) = levRec (ra ++ [c]) (pre ++ [y]) := by
      rw [levRec_append]
      rw [min_comm (levRec ra (pre ++ [y]) + 1) (levRec (ra ++ [c]) pre + 1)]
    simp only [hcur]
    rw [ih (pre ++ [y])]
    rfl

theorem levRow_spec (c : Char) (ra b : List Char) :
    levRow c b (rowSpec ra b) (ra.length + 1) = rowSpec (ra ++ [c]) b := by
  have h0 : levRec ra [] = ra.length := levRec_nil_right ra
  have h1 : levRec (ra ++ [c]) [] = ra.length + 1 := by
    rw [levRec_nil_right]; simp
  show (ra.length + 1) :: levRowAux c b (rowSpecAux ra [] b) (levRec ra []) (ra.length + 1)
      = levRec (ra ++ [c]) [] :: rowSpecAux (ra ++ [c]) [] b
  have h2 := levRowAux_spec c ra b []
  rw [h1] at h2
  rw [h1, h2]

theorem levRows_spec (b : List Char) :
    ∀ (as ra : List Char),
      levRows b as (rowSpec ra b) (ra.length + 1) = rowSpec (ra ++ as) b := by
  intro as
  induction as with
  | nil => intro ra; simp [levRows]
  | cons c as ih =>
    intro ra
    rw [levRows, levRow_spec]
    have := ih (ra ++ [c])
    simp only [List.length_append, List.length_cons, List.length_nil] at this
    rw [this]
    simp

theorem rowSpecAux_getD (ra : List Char) :
    ∀ (bs pre : List Char), bs ≠ [] →
      (rowSpecAux ra pre bs).getD (bs.length - 1) 0 = levRec ra (pre ++ bs) := by
  intro bs
  induction bs with
  | nil => intro pre h; exact absurd rfl h
  | cons y bs ih =>
    intro pre _
    cases bs with
    | nil => simp [rowSpecAux]
    | cons y' bs' =>
      show ((levRec ra (pre ++ [y]) :: rowSpecAux ra (pre ++ [y]) (y' :: bs')).getD
        ((y :: y' :: bs').length - 1) 0) = _
      have hlen : (y :: y' :: bs').length - 1 = (y' :: bs').length - 1 + 1 := by
        simp
      rw [hlen]
      simp only [List.getD_cons_succ]
      rw [ih (pre ++ [y]) (by simp)]
      simp

theorem rowSpec_getD (ra b : List Char) (hb : b ≠ []) :
    (rowSpec ra b).getD b.length 0 = levRec ra b := by
  have hpos : 0 < b.length := List.length_pos.mpr hb
  rw [rowSpec]
  have : b.length = (b.length - 1) + 1 := by omega
  rw [this]
  simp only [List.getD_cons_succ]
  have := rowSpecAux_getD ra b [] hb
  simpa using this

theorem rowSpec_nil_eq_range (b : List Char) :
    rowSpec [] b = List.range (b.length + 1) := by
  have aux : ∀ (bs pre : List Char),
      rowSpecAux [] pre bs = List.range' (pre.length + 1) bs.length := by
    intro bs
    induction bs with
    | nil => intro pre; simp [rowSpecAux]
    | cons y bs ih =>
      intro pre
      rw [rowSpecAux, ih (pre ++ [y]), levRec_nil_left]
      simp only [List.length_cons, List.length_append, List.length_nil]
      rw [List.range'_succ]
  rw [rowSpec, aux b [], levRec_nil_left]
  rw [List.range_eq_range', List.range'_succ]
  simp

/-- The two-row dynamic program in `levenshteinDistance` computes the
recursive Levenshtein edit distance. -/
theorem levenshteinDistance_eq_levRec (a b : List Char) :
    levenshteinDistance a b = levRec a b := by
  rw [levenshteinDistance]
  by_cases hab : a = b
  · simp [hab, levRec_self]
  · simp only [hab, if_false]
    by_cases ha : a.length = 0
    · have : a = [] := List.length_eq_zero.mp ha
      simp [this, ha, levRec_nil_left]
    · simp only [ha, if_false]
      by_cases hb : b.length = 0
      · have : b = [] := List.length_eq_zero.mp hb
        simp [this, hb, levRec_nil_right]
      · simp only [hb, if_false]
        have hbne : b ≠ [] := fun h => hb (by simp [h])
        rw [← rowSpec_nil_eq_range b]
        have := levRows_spec b a []
        simp only [List.length_nil, List.nil_append] at this
        rw [this, rowSpec_getD a b hbne]

/-- C6: `normalizedLevenshtein(a,a) = 0`, it is symmetric, its value lies
in `[0,1]`, and it equals the Levenshtein edit distance (`levRec`, the
textbook recursion) divided by the maximum of the two lengths, with the
value `0` when both strings are empty. -/
theorem C6_normalizedLevenshtein_props :
    (∀ a : List Char, normalizedLevenshtein a a = 0)
    ∧ (∀ a b : List Char, normalizedLevenshtein a b = normalizedLevenshtein b a)
    ∧ (∀ a b : List Char, 0 ≤ normalizedLevenshtein a b ∧ normalizedLevenshtein a b ≤ 1)
    ∧ (∀ a b : List Char, normalizedLevenshtein a b =
        if max a.length b.length = 0 then 0
        else (levRec a b : ℚ) / ((max a.length b.length : ℕ) : ℚ)) := by
  have hrw : ∀ a b : List Char, normalizedLevenshtein a b =
      if max a.length b.length = 0 then 0
      else (levRec a b : ℚ) / ((max a.length b.length : ℕ) : ℚ) := by
    intro a b
    rw [normalizedLevenshtein, levenshteinDistance_eq_levRec]
  refine ⟨?_, ?_, ?_, hrw⟩
  · intro a
    rw [hrw]
    split
    · rfl
    · rw [levRec_self]
      simp
  · intro a b
    rw [hrw, hrw, levRec_symm, max_comm]
  · intro a b
    rw [hrw]
    split
    · exact ⟨le_refl 0, by norm_num⟩
    · rename_i hmax
      have hpos : (0 : ℚ) < ((max a.length b.length : ℕ) : ℚ) := by
        have : 0 < max a.length b.length := Nat.pos_of_ne_zero hmax
        exact_mod_cast this
      constructor
      · positivity
      · rw [div_le_one hpos]
        exact_mod_cast levRec_le_max a b

theorem tokenUnitWeight_pos (n i : Nat) (t : String) : 0 < tokenUnitWeight n i t := by
  rw [tokenUnitWeight]
  have hmax : (0 : ℚ) < max (1 / 2) (1 - ((i : ℚ) / (n : ℚ)) * (1 / 2)) :=
    lt_of_lt_of_le (by norm_num) (le_max_left _ _)
  apply mul_pos _ hmax
  split <;> split <;> split <;> norm_num

theorem addWeight_ne_nil (m : List (String × ℚ)) (t : String) (w : ℚ) :
    addWeight m t w ≠ [] := by
  cases m with
  | nil => simp [addWeight]
  | cons p rest =>
    obtain ⟨k, v⟩ := p
    rw [addWeight]
    split <;> simp

theorem addWeight_pos (m : List (String × ℚ)) (t : String) (w : ℚ)
    (hm : ∀ p ∈ m, 0 < p.2) (hw : 0 < w) :
    ∀ p ∈ addWeight m t w, 0 < p.2 := by
  induction m with
  | nil =>
    intro p hp
    simp [addWeight] at hp
    simp [hp, hw]
  | cons q rest ih =>
    obtain ⟨k, v⟩ := q
    intro p hp
    rw [addWeight] at hp
    split at hp
    · rcases List.mem_cons.mp hp with h | h
      · subst h
        have := hm (k, v) (by simp)
        simp only at this ⊢
        linarith
      · exact hm p (List.mem_cons_of_mem _ h)
    · rcases List.mem_cons.mp hp with h | h
      · subst h; exact hm (k, v) (by simp)
      · exact ih (fun q hq => hm q (List.mem_cons_of_mem _ hq)) p h

theorem foldl_addWeight_pos (n : Nat) :
    ∀ (l : List (Nat × String)) (m : List (String × ℚ)),
      (∀ p ∈ m, 0 < p.2) →
      ∀ q ∈ l.foldl (fun m p => addWeight m p.2 (tokenUnitWeight n p.1 p.2)) m,
        0 < q.2 := by
  intro l
  induction l with
  | nil => intro m hm q hq; exact hm q hq
  | cons p rest ih =>
    intro m hm q hq
    rw [List.foldl_cons] at hq
    exact ih _ (addWeight_pos m p.2 _ hm (tokenUnitWeight_pos n p.1 p.2)) q hq

theorem calculateTokenWeights_pos (tokens : List String) :
    ∀ q ∈ calculateTokenWeights tokens, 0 < q.2 := by
  rw [calculateTokenWeights]
  exact foldl_addWeight_pos tokens.length tokens.enum [] (by simp)

theorem foldl_addWeight_ne_nil (n : Nat) :
    ∀ (l : List (Nat × String)) (m : List (String × ℚ)), m ≠ [] →
      l.foldl (fun m p => addWeight m p.2 (tokenUnitWeight n p.1 p.2)) m ≠ [] := by
  intro l
  induction l with
  | nil => intro m hm; exact hm
  | cons p rest ih =>
    intro m _
    rw [List.foldl_cons]
    exact ih _ (addWeight_ne_nil m p.2 _)

theorem calculateTokenWeights_ne_nil (t : String) (ts : List String) :
    calculateTokenWeights (t :: ts) ≠ [] := by
  rw [calculateTokenWeights]
  cases h : (t :: ts).enum with
  | nil =>
    have := congrArg List.length h
    simp at this
  | cons p rest =>
    rw [List.foldl_cons]
    exact foldl_addWeight_ne_nil _ _ _ (addWeight_ne_nil _ _ _)

theorem lookup_mem {κ α : Type} [BEq κ] [LawfulBEq κ] {m : List (κ × α)} {t : κ} {v : α}
    (h : m.lookup t = some v) : (t, v) ∈ m := by
  induction m with
  | nil => simp [List.lookup] at h
  | cons p rest ih =>
    obtain ⟨k, w⟩ := p
    rw [List.lookup] at h
    by_cases hk : t = k
    · subst hk
      simp at h
      simp [h]
    · have : (t == k) = false := beq_false_of_ne hk
      rw [this] at h
      exact List.mem_cons_of_mem _ (ih h)

theorem lookup_isSome_of_mem_keys {κ α : Type} [BEq κ] [LawfulBEq κ]
    {m : List (κ × α)} {t : κ}
    (h : t ∈ m.map Prod.fst) : (m.lookup t).isSome := by
  induction m with
  | nil => simp at h
  | cons p rest ih =>
    obtain ⟨k, w⟩ := p
    rw [List.lookup]
    by_cases hk : t = k
    · subst hk; simp
    · have hb : (t == k) = false := beq_false_of_ne hk
      rw [hb]
      apply ih
      simp at h
      rcases h with h | h
      · exact absurd h hk
      · simpa using h

theorem weightOf_nonneg (m : List (String × ℚ)) (t : String)
    (hm : ∀ p ∈ m, 0 < p.2) : 0 ≤ weightOf m t := by
  rw [weightOf]
  cases hl : m.lookup t with
  | none => simp
  | some v =>
    have := hm (t, v) (lookup_mem hl)
    simp only [Option.getD_some]
    exact le_of_lt this

theorem weightOf_pos_of_mem (m : List (String × ℚ)) (t : String)
    (hm : ∀ p ∈ m, 0 < p.2) (ht : t ∈ m.map Prod.fst) : 0 < weightOf m t := by
  rw [weightOf]
  cases hl : m.lookup t with
  | none =>
    have := lookup_isSome_of_mem_keys ht
    rw [hl] at this
    simp at this
  | some v =>
    have := hm (t, v) (lookup_mem hl)
    simpa using this

theorem jsSetDedup_mem (l : List String) (a : String) :
    a ∈ jsSetDedup l ↔ a ∈ l := by
  have aux : ∀ (l acc : List String),
      a ∈ l.foldl (fun acc t => if acc.contains t then acc else acc ++ [t]) acc ↔
        a ∈ acc ∨ a ∈ l := by
    intro l
    induction l with
    | nil => intro acc; simp
    | cons t rest ih =>
      intro acc
      rw [List.foldl_cons]
      by_cases hc : acc.contains t
      · rw [if_pos hc, ih]
        have htacc : t ∈ acc := by simpa using hc
        constructor
        · rintro (h | h)
          · exact Or.inl h
          · simp [h]
        · rintro (h | h)
          · exact Or.inl h
          · rcases List.mem_cons.mp h with h | h
            · subst h; exact Or.inl htacc
            · exact Or.inr h
      · rw [if_neg hc, ih]
        simp [List.mem_append, List.mem_cons]
        tauto
  rw [jsSetDedup, aux]
  simp

/-- C5: weighted Jaccard similarity lies in `[0,1]`, equals `1` on any
non-empty token list compared with itself, and equals `0` whenever either
token list is empty. -/
theorem C5_weightedJaccard_props :
    (∀ A B : List String,
      0 ≤ weightedJaccardSimilarity A B ∧ weightedJaccardSimilarity A B ≤ 1)
    ∧ (∀ (a : String) (A : List String),
        weightedJaccardSimilarity (a :: A) (a :: A) = 1)
    ∧ (∀ B : List String, weightedJaccardSimilarity [] B = 0)
    ∧ (∀ A : List String, weightedJaccardSimilarity A [] = 0) := by
  refine ⟨?_, ?_, ?_, ?_⟩
  · intro A B
    simp only [weightedJaccardSimilarity]
    split
    · norm_num
    · have hApos : ∀ p ∈ calculateTokenWeights A, 0 < p.2 :=
        calculateTokenWeights_pos A
      have hBpos : ∀ p ∈ calculateTokenWeights B, 0 < p.2 :=
        calculateTokenWeights_pos B
      set wA := calculateTokenWeights A with hwA
      set wB := calculateTokenWeights B with hwB
      set allTokens := jsSetDedup (wA.map Prod.fst ++ wB.map Prod.fst) with hall
      have hinter : 0 ≤ (allTokens.map
          (fun t => min (weightOf wA t) (weightOf wB t))).sum := by
        apply List.sum_nonneg
        intro x hx
        obtain ⟨t, _, rfl⟩ := List.mem_map.mp hx
        exact le_min (weightOf_nonneg wA t hApos) (weightOf_nonneg wB t hBpos)
      have hIU : (allTokens.map
          (fun t => min (weightOf wA t) (weightOf wB t))).sum ≤
          (allTokens.map (fun t => max (weightOf wA t) (weightOf wB t))).sum := by
        exact List.sum_le_sum fun t _ => min_le_max
      split_ifs with hU
      · exact ⟨le_refl 0, by norm_num⟩
      · have hUpos : 0 < (allTokens.map
            (fun t => max (weightOf wA t) (weightOf wB t))).sum :=
          lt_of_le_of_ne (le_trans hinter hIU) (Ne.symm hU)
        exact ⟨div_nonneg hinter (le_of_lt hUpos), (div_le_one hUpos).mpr hIU⟩
  · intro a A
    simp only [weightedJaccardSimilarity]
    rw [if_neg (by simp)]
    have hmm : (fun t => min (weightOf (calculateTokenWeights (a :: A)) t)
        (weightOf (calculateTokenWeights (a :: A)) t)) =
        fun t => weightOf (calculateTokenWeights (a :: A)) t := by
      funext t; simp
    have hMM : (fun t => max (weightOf (calculateTokenWeights (a :: A)) t)
        (weightOf (calculateTokenWeights (a :: A)) t)) =
        fun t => weightOf (calculateTokenWeights (a :: A)) t := by
      funext t; simp
    rw [hmm, hMM]
    have hkeys : calculateTokenWeights (a :: A) ≠ [] :=
      calculateTokenWeights_ne_nil a A
    set w := calculateTokenWeights (a :: A) with hw
    set S := jsSetDedup (w.map Prod.fst ++ w.map Prod.fst) with hS
    obtain ⟨p, hp⟩ := List.exists_mem_of_ne_nil w hkeys
    have hpk : p.1 ∈ w.map Prod.fst := List.mem_map_of_mem Prod.fst hp
    have hpS : p.1 ∈ S := (jsSetDedup_mem _ _).mpr (List.mem_append_left _ hpk)
    have hSne : S ≠ [] := List.ne_nil_of_mem hpS
    have hwpos : ∀ q ∈ w, 0 < q.2 := by
      rw [hw]; exact calculateTokenWeights_pos (a :: A)
    have hpos : 0 < (S.map fun t => weightOf w t).sum := by
      apply List.sum_pos
      · intro x hx
        obtain ⟨t, ht, rfl⟩ := List.mem_map.mp hx
        have htk : t ∈ w.map Prod.fst := by
          have := (jsSetDedup_mem _ t).mp ht
          rcases List.mem_append.mp this with h | h <;> exact h
        exact weightOf_pos_of_mem w t hwpos htk
      · intro h
        exact hSne (List.map_eq_nil_iff.mp h)
    rw [if_neg (ne_of_gt hpos)]
    exact div_self (ne_of_gt hpos)
  · intro B
    simp [weightedJaccardSimilarity]
  · intro A
    simp [weightedJaccardSimilarity]

theorem lookup_none_of_not_mem_keys {κ α : Type} [BEq κ] [LawfulBEq κ]
    {m : List (κ × α)} {t : κ}
    (h : t ∉ m.map Prod.fst) : m.lookup t = none := by
  induction m with
  | nil => simp [List.lookup]
  | cons p rest ih =>
    obtain ⟨k, v⟩ := p
    rw [List.lookup]
    have hk : t ≠ k := by
      intro he; exact h (by simp [he])
    rw [beq_false_of_ne hk]
    exact ih (fun hm => h (by simp at hm ⊢; exact Or.inr hm))

theorem not_mem_keys_of_lookup_none {κ α : Type} [BEq κ] [LawfulBEq κ]
    {m : List (κ × α)} {t : κ}
    (h : m.lookup t = none) : t ∉ m.map Prod.fst := by
  intro hm
  have := lookup_isSome_of_mem_keys hm
  rw [h] at this
  simp at this

theorem eraseKey_keys {κ α : Type} [DecidableEq κ] (m : List (κ × α)) (k : κ) :
    (eraseKey m k).map Prod.fst = (m.map Prod.fst).erase k := by
  induction m with
  | nil => simp [eraseKey]
  | cons p rest ih =>
    obtain ⟨k', v⟩ := p
    rw [eraseKey]
    by_cases hk : k' = k
    · subst hk
      simp [List.erase_cons_head]
    · rw [if_neg hk]
      simp only [List.map_cons]
      rw [List.erase_cons_tail, ih]
      simp [hk]

theorem setKey_of_not_mem {κ α : Type} [DecidableEq κ] {m : List (κ × α)} {t : κ} (v : α)
    (h : t ∉ m.map Prod.fst) : setKey m t v = m ++ [(t, v)] := by
  induction m with
  | nil => simp [setKey]
  | cons p rest ih =>
    obtain ⟨k, w⟩ := p
    rw [setKey]
    have hk : k ≠ t := by
      intro he; exact h (by simp [he])
    rw [if_neg hk, ih (fun hm => h (by simp at hm ⊢; exact Or.inr hm))]
    simp

theorem getTokens_empty (s : TokCache) : s.getTokens "" = ([], s) := by
  simp [TokCache.getTokens]

theorem getTokens_hit (s : TokCache) (k : String) (v : List String)
    (hk : k ≠ "") (hcl : s.cache.lookup k = some v) :
    s.getTokens k = (v,
      { s with hits := s.hits + 1,
               accessOrder := s.accessOrder.erase k ++ [k] }) := by
  rw [TokCache.getTokens, if_neg hk, hcl]

theorem getTokens_miss_evict (s : TokCache) (k o0 : String) (orest : List String)
    (hk : k ≠ "") (hcl : s.cache.lookup k = none)
    (hge : s.maxSize ≤ s.cache.length) (ho : s.accessOrder = o0 :: orest) :
    s.getTokens k = (s.tokenizer k,
      { s with misses := s.misses + 1,
               cache := setKey (eraseKey s.cache o0) k (s.tokenizer k),
               accessOrder := orest ++ [k] }) := by
  rw [TokCache.getTokens, if_neg hk, hcl]
  dsimp only
  rw [if_pos hge, if_pos hge, ho]
  rfl

theorem getTokens_miss_noevict (s : TokCache) (k : String)
    (hk : k ≠ "") (hcl : s.cache.lookup k = none)
    (hlt : s.cache.length < s.maxSize) :
    s.getTokens k = (s.tokenizer k,
      { s with misses := s.misses + 1,
               cache := setKey s.cache k (s.tokenizer k),
               accessOrder := s.accessOrder ++ [k] }) := by
  rw [TokCache.getTokens, if_neg hk, hcl]
  dsimp only
  rw [if_neg (not_le.mpr hlt), if_neg (not_le.mpr hlt)]

theorem getTokens_WF (s : TokCache) (text : String) (hmax : 1 ≤ s.maxSize)
    (h : s.WF) : (s.getTokens text).2.WF := by
  obtain ⟨hperm, hnodup, hlen⟩ := h
  by_cases htext : text = ""
  · subst htext
    rw [getTokens_empty]
    exact ⟨hperm, hnodup, hlen⟩
  · cases hcl : s.cache.lookup text with
    | some v =>
      rw [getTokens_hit s text v htext hcl]
      dsimp only
      have hmemk : text ∈ s.cache.map Prod.fst :=
        List.mem_map_of_mem Prod.fst (lookup_mem hcl)
      have hmemo : text ∈ s.accessOrder := hperm.mem_iff.mp hmemk
      refine ⟨?_, ?_, hlen⟩
      · exact hperm.trans ((List.perm_cons_erase hmemo).trans
          (List.perm_append_singleton _ _).symm)
      · rw [List.nodup_append]
        refine ⟨hnodup.erase text, by simp, ?_⟩
        intro a ha hb
        simp at hb
        subst hb
        rw [hnodup.mem_erase_iff] at ha
        exact ha.1 rfl
    | none =>
      have hnotk : text ∉ s.cache.map Prod.fst := not_mem_keys_of_lookup_none hcl
      have hnoto : text ∉ s.accessOrder := fun hm => hnotk (hperm.mem_iff.mpr hm)
      by_cases hev : s.maxSize ≤ s.cache.length
      · have hlene : s.cache.length = s.maxSize := le_antisymm hlen hev
        have holen : s.accessOrder.length = s.maxSize := by
          rw [← hperm.length_eq]
          simpa using hlene
        cases horder : s.accessOrder with
        | nil =>
          rw [horder] at holen
          simp at holen
          omega
        | cons oldest rest =>
          rw [getTokens_miss_evict s text oldest rest htext hcl hev horder]
          dsimp only
          have hmemold : oldest ∈ s.cache.map Prod.fst := by
            rw [hperm.mem_iff, horder]; simp
          have hkeys1 : List.Perm ((eraseKey s.cache oldest).map Prod.fst) rest := by
            rw [eraseKey_keys]
            have h1 : List.Perm ((s.cache.map Prod.fst).erase oldest)
                ((oldest :: rest).erase oldest) := by
              apply List.Perm.erase
              rw [← horder]; exact hperm
            simpa using h1
          have hnotk1 : text ∉ (eraseKey s.cache oldest).map Prod.fst := by
            rw [eraseKey_keys]
            intro hm
            exact hnotk (List.mem_of_mem_erase hm)
          have hset := setKey_of_not_mem (s.tokenizer text) hnotk1
          refine ⟨?_, ?_, ?_⟩
          · show List.Perm ((setKey (eraseKey s.cache oldest) text
              (s.tokenizer text)).map Prod.fst) (rest ++ [text])
            rw [hset, List.map_append]
            exact List.Perm.append hkeys1 (by simp)
          · show (rest ++ [text]).Nodup
            have hrestnodup : rest.Nodup := by
              rw [horder] at hnodup
              exact hnodup.of_cons
            have htextrest : text ∉ rest := fun hm =>
              hnoto (by rw [horder]; exact List.mem_cons_of_mem _ hm)
            rw [List.nodup_append]
            refine ⟨hrestnodup, by simp, ?_⟩
            intro a ha hb
            simp at hb
            subst hb
            exact htextrest ha
          · show (setKey (eraseKey s.cache oldest) text
              (s.tokenizer text)).length ≤ s.maxSize
            rw [hset]
            simp only [List.length_append, List.length_singleton]
            have hle : (eraseKey s.cache oldest).length =
                ((s.cache.map Prod.fst).erase oldest).length := by
              rw [← eraseKey_keys]
              simp
            rw [hle, List.length_erase_of_mem hmemold]
            simp only [List.length_map]
            omega
      · have hlt : s.cache.length < s.maxSize := not_le.mp hev
        rw [getTokens_miss_noevict s text htext hcl hlt]
        dsimp only
        have hset := setKey_of_not_mem (s.tokenizer text) hnotk
        refine ⟨?_, ?_, ?_⟩
        · show List.Perm ((setKey s.cache text (s.tokenizer text)).map Prod.fst)
            (s.accessOrder ++ [text])
          rw [hset, List.map_append]
          exact List.Perm.append hperm (by simp)
        · show (s.accessOrder ++ [text]).Nodup
          rw [List.nodup_append]
          refine ⟨hnodup, by simp, ?_⟩
          intro a ha hb
          simp at hb
          subst hb
          exact hnoto ha
        · show (setKey s.cache text (s.tokenizer text)).length ≤ s.maxSize
          rw [hset]
          simp only [List.length_append, List.length_singleton]
          omega

theorem freshTokState_keys (tok : String → List String) (maxSize : Nat)
    (ks : List String) :
    ((freshTokState tok maxSize ks).cache).map Prod.fst = ks := by
  show (ks.map (fun k => (k, tok k))).map Prod.fst = ks
  rw [List.map_map]
  have h : (Prod.fst ∘ fun k => (k, tok k)) = id := rfl
  rw [h, List.map_id]

theorem getTokens_maxSize (s : TokCache) (k : String) :
    (s.getTokens k).2.maxSize = s.maxSize := by
  rw [TokCache.getTokens]
  split
  · rfl
  · cases s.cache.lookup k <;> rfl

theorem getTokens_misses_of_lookup_none (s : TokCache) (k : String)
    (hk : k ≠ "") (hcl : s.cache.lookup k = none) :
    (s.getTokens k).2.misses = s.misses + 1 := by
  rw [TokCache.getTokens, if_neg hk, hcl]

theorem getTokens_hits_of_lookup_some (s : TokCache) (k : String) (v : List String)
    (hk : k ≠ "") (hcl : s.cache.lookup k = some v) :
    (s.getTokens k).2.hits = s.hits + 1 := by
  rw [TokCache.getTokens, if_neg hk, hcl]

theorem fold_getTokens_fresh (tok : String → List String) (maxSize : Nat) :
    ∀ (ks pre : List String), (pre ++ ks).Nodup → (∀ k ∈ ks, k ≠ "") →
      (pre ++ ks).length ≤ maxSize →
      ks.foldl (fun s k => (s.getTokens k).2) (freshTokState tok maxSize pre)
        = freshTokState tok maxSize (pre ++ ks) := by
  intro ks
  induction ks with
  | nil => intro pre _ _ _; simp
  | cons k ks ih =>
    intro pre hnodup hne hlen
    have hkpre : k ∉ pre := by
      rw [List.nodup_append] at hnodup
      intro hmem
      exact hnodup.2.2 hmem (by simp)
    have hlk : (freshTokState tok maxSize pre).cache.lookup k = none := by
      apply lookup_none_of_not_mem_keys
      rw [freshTokState_keys]
      exact hkpre
    have hlt : (freshTokState tok maxSize pre).cache.length < maxSize := by
      simp only [freshTokState, List.length_map]
      simp only [List.length_append, List.length_cons] at hlen
      omega
    rw [List.foldl_cons,
      getTokens_miss_noevict _ _ (hne k (by simp)) hlk hlt]
    have hstate : ({ freshTokState tok maxSize pre with
        misses := (freshTokState tok maxSize pre).misses + 1,
        cache := setKey (freshTokState tok maxSize pre).cache k
          ((freshTokState tok maxSize pre).tokenizer k),
        accessOrder := (freshTokState tok maxSize pre).accessOrder ++ [k] } : TokCache)
        = freshTokState tok maxSize (pre ++ [k]) := by
      have hsk : setKey ((freshTokState tok maxSize pre).cache) k (tok k)
          = (freshTokState tok maxSize pre).cache ++ [(k, tok k)] := by
        apply setKey_of_not_mem
        rw [freshTokState_keys]
        exact hkpre
      simp only [freshTokState] at hsk ⊢
      rw [hsk]
      simp
    rw [hstate]
    have hih := ih (pre ++ [k])
      (by simpa [List.append_assoc] using hnodup)
      (fun k' hk' => hne k' (by simp [hk']))
      (by simpa [List.append_assoc] using hlen)
    simpa [List.append_assoc] using hih

/-- C7: after every `getTokens` call the cache size stays within `maxSize`
(and well-formedness is preserved), and after inserting `maxSize + 1`
distinct keys into a fresh cache the first (least-recently-used) key has
been evicted — looking it up again is a miss — while every later key is
still cached and looking it up is a hit. -/
theorem C7_cache_lru_eviction :
    (∀ (s : TokCache) (text : String), 1 ≤ s.maxSize → s.WF →
      ((s.getTokens text).2.cache.length ≤ s.maxSize ∧ (s.getTokens text).2.WF))
    ∧ (∀ (tok : String → List String) (maxSize : Nat) (k0 : String)
        (t : List String),
        1 ≤ maxSize → (k0 :: t).length = maxSize + 1 → (k0 :: t).Nodup →
        (∀ k ∈ k0 :: t, k ≠ "") →
        ∀ final : TokCache,
          final = (k0 :: t).foldl (fun s k => (s.getTokens k).2)
            (TokCache.init tok maxSize) →
          (final.cache.lookup k0 = none
            ∧ (∀ k ∈ t, (final.cache.lookup k).isSome)
            ∧ (final.getTokens k0).2.misses = final.misses + 1
            ∧ ∀ k ∈ t, (final.getTokens k).2.hits = final.hits + 1)) := by
  constructor
  · intro s text h1 h2
    have hwf := getTokens_WF s text h1 h2
    refine ⟨?_, hwf⟩
    have := hwf.2.2
    rwa [getTokens_maxSize] at this
  · intro tok maxSize k0 t hmax hlen hnodup hne final hfinal
    rcases List.eq_nil_or_concat t with ht | ⟨t', klast, ht⟩
    · subst ht
      simp at hlen
      omega
    · rw [List.concat_eq_append] at ht
      subst ht
      have hkeys : k0 :: (t' ++ [klast]) = (k0 :: t') ++ [klast] := by simp
      have hfrontlen : (k0 :: t').length = maxSize := by
        simp only [List.length_cons, List.length_append, List.length_nil,
          List.length_singleton] at hlen ⊢
        omega
      have hfrontnodup : (k0 :: t').Nodup := by
        rw [hkeys] at hnodup
        exact hnodup.of_append_left
      have hfront : (k0 :: t').foldl (fun s k => (s.getTokens k).2)
          (TokCache.init tok maxSize) = freshTokState tok maxSize (k0 :: t') := by
        have := fold_getTokens_fresh tok maxSize (k0 :: t') []
          (by simpa using hfrontnodup)
          (fun k hk => hne k (by rw [hkeys]; exact List.mem_append_left _ hk))
          (by simp [hfrontlen])
        simpa using this
      have hklastne : klast ≠ "" := hne klast (by simp)
      have hklastnotfront : klast ∉ k0 :: t' := by
        rw [hkeys] at hnodup
        rw [List.nodup_append] at hnodup
        intro hmem
        exact hnodup.2.2 hmem (by simp)
      have hcl : (freshTokState tok maxSize (k0 :: t')).cache.lookup klast = none := by
        apply lookup_none_of_not_mem_keys
        rw [freshTokState_keys]
        exact hklastnotfront
      have hge : maxSize ≤ (freshTokState tok maxSize (k0 :: t')).cache.length := by
        have h := hfrontlen
        simp only [List.length_cons] at h
        simp only [freshTokState, List.length_map, List.length_cons]
        omega
      have horder : (freshTokState tok maxSize (k0 :: t')).accessOrder = k0 :: t' := rfl
      have hstep := getTokens_miss_evict (freshTokState tok maxSize (k0 :: t'))
        klast k0 t' hklastne hcl hge horder
      have hk0t' : k0 ∉ t' := fun hm => (hfrontnodup.not_mem) hm
      have hcache : setKey (eraseKey (freshTokState tok maxSize (k0 :: t')).cache k0)
          klast ((freshTokState tok maxSize (k0 :: t')).tokenizer klast)
          = (t' ++ [klast]).map (fun k => (k, tok k)) := by
        have h1 : eraseKey ((freshTokState tok maxSize (k0 :: t')).cache) k0
            = t'.map (fun k => (k, tok k)) := by
          show eraseKey ((k0, tok k0) :: t'.map (fun k => (k, tok k))) k0 = _
          rw [eraseKey]
          simp
        rw [h1]
        have h2 : klast ∉ (t'.map (fun k => (k, tok k))).map Prod.fst := by
          simp only [List.map_map]
          intro hm
          apply hklastnotfront
          apply List.mem_cons_of_mem
          simpa using hm
        rw [setKey_of_not_mem _ h2]
        simp [freshTokState]
      have hfinalcache : final.cache = (t' ++ [klast]).map (fun k => (k, tok k)) := by
        rw [hfinal, hkeys, List.foldl_append, hfront]
        simp only [List.foldl_cons, List.foldl_nil]
        rw [hstep]
        exact hcache
      have hkeysfinal : final.cache.map Prod.fst = t' ++ [klast] := by
        rw [hfinalcache, List.map_map]
        have h : (Prod.fst ∘ fun k => (k, tok k)) = id := rfl
        rw [h, List.map_id]
      refine ⟨?_, ?_, ?_, ?_⟩
      · apply lookup_none_of_not_mem_keys
        rw [hkeysfinal]
        intro hm
        rcases List.mem_append.mp hm with h | h
        · exact hk0t' h
        · simp at h
          subst h
          exact hklastnotfront (by simp)
      · intro k hk
        apply lookup_isSome_of_mem_keys
        rw [hkeysfinal]
        exact hk
      · apply getTokens_misses_of_lookup_none
        · exact hne k0 (by simp)
        · apply lookup_none_of_not_mem_keys
          rw [hkeysfinal]
          intro hm
          rcases List.mem_append.mp hm with h | h
          · exact hk0t' h
          · simp at h
            subst h
            exact hklastnotfront (by simp)
      · intro k hk
        have hmem : k ∈ final.cache.map Prod.fst := by rw [hkeysfinal]; exact hk
        have hsome := lookup_isSome_of_mem_keys hmem
        obtain ⟨v, hv⟩ := Option.isSome_iff_exists.mp hsome
        exact getTokens_hits_of_lookup_some final k v (hne k (by simp [hk])) hv

/-- Witness for C7: a capacity-2 cache receiving the three distinct keys
"a", "b", "c" evicts "a" and keeps "b", "c". -/
theorem C7_cache_lru_eviction_witness :
    (((TokCache.init (fun t => [t]) 2).getTokens "a").2.cache.length ≤ 2
      ∧ ((TokCache.init (fun t => [t]) 2).getTokens "a").2.WF)
    ∧ (∀ final : TokCache,
        final = (["a", "b", "c"] : List String).foldl
          (fun s k => (s.getTokens k).2) (TokCache.init (fun t => [t]) 2) →
        (final.cache.lookup "a" = none
          ∧ (∀ k ∈ (["b", "c"] : List String), (final.cache.lookup k).isSome)
          ∧ (final.getTokens "a").2.misses = final.misses + 1
          ∧ ∀ k ∈ (["b", "c"] : List String),
              (final.getTokens k).2.hits = final.hits + 1)) := by
  constructor
  · exact C7_cache_lru_eviction.1 (TokCache.init (fun t => [t]) 2) "a"
      (by decide)
      (by refine ⟨?_, ?_, ?_⟩ <;> simp [TokCache.init])
  · exact C7_cache_lru_eviction.2 (fun t => [t]) 2 "a" ["b", "c"]
      (by decide) (by decide) (by decide) (by decide)

/-- C9: `decompress` is total — the empty input decodes to the empty
string, a corrupted buffer (here `"a"` followed by the out-of-range code
300) yields `null` (`none`) instead of an exception, and the
`originalLines` accessor degrades to an empty line list whenever
decompression returns `null` or an empty string. -/
theorem C9_decompress_degrades :
    Compression.decompress [] = some []
    ∧ Compression.decompress [97, 300] = none
    ∧ (∀ c : List Nat, Compression.decompress c = none → originalLines c = [])
    ∧ (∀ c : List Nat, Compression.decompress c = some [] → originalLines c = []) := by
  refine ⟨rfl, by decide, ?_, ?_⟩
  · intro c h
    rw [originalLines, h]
  · intro c h
    rw [originalLines, h]
    rfl

/-- Witness for C9 at the corrupted buffer `[97, 300]` and the empty
buffer. -/
theorem C9_decompress_degrades_witness :
    originalLines [97, 300] = [] ∧ originalLines [] = [] :=
  ⟨C9_decompress_degrades.2.2.1 [97, 300] (by decide),
   C9_decompress_degrades.2.2.2 [] (by decide)⟩

theorem lookup_eq_of_nodup_mem {κ α : Type} [BEq κ] [LawfulBEq κ]
    {m : List (κ × α)} (hnd : (m.map Prod.fst).Nodup) {k : κ} {v : α}
    (h : (k, v) ∈ m) : m.lookup k = some v := by
  induction m with
  | nil => simp at h
  | cons p rest ih =>
    obtain ⟨k0, w⟩ := p
    simp only [List.map_cons, List.nodup_cons] at hnd
    rcases List.mem_cons.mp h with h1 | h2
    · rw [Prod.mk.injEq] at h1
      obtain ⟨hk, hv⟩ := h1
      subst hk
      subst hv
      rw [List.lookup, beq_self_eq_true]
    · have hk : k ≠ k0 := by
        intro he
        subst he
        exact hnd.1 (List.mem_map.mpr ⟨(k, v), h2, rfl⟩)
      rw [List.lookup, beq_false_of_ne hk]
      exact ih hnd.2 h2

theorem headD_append {α : Type} (l m : List α) (d : α) (h : l ≠ []) :
    (l ++ m).headD d = l.headD d := by
  cases l with
  | nil => exact absurd rfl h
  | cons a t => rfl

theorem initD_swap : lzwInitD.map Prod.swap = lzwInitC := by
  rw [lzwInitD, lzwInitC, List.map_map]
  rfl

theorem mem_lzwInitC {c : Nat} (h : c < 256) : ([c], c) ∈ lzwInitC :=
  List.mem_map.mpr ⟨c, List.mem_range.mpr h, rfl⟩

theorem mem_lzwInitD {c : Nat} (h : c < 256) : (c, [c]) ∈ lzwInitD :=
  List.mem_map.mpr ⟨c, List.mem_range.mpr h, rfl⟩

theorem lzwInitC_keys_nodup : (lzwInitC.map Prod.fst).Nodup := by
  rw [lzwInitC, List.map_map]
  refine List.Nodup.map ?_ (List.nodup_range 256)
  intro a b hab
  simpa using hab

theorem lzwInitD_codes_nodup : (lzwInitD.map Prod.fst).Nodup := by
  rw [lzwInitD, List.map_map]
  have h : (Prod.fst ∘ fun i : Nat => (i, [i])) = id := rfl
  rw [h, List.map_id]
  exact List.nodup_range 256

theorem lzwInitD_codes_lt : ∀ p ∈ lzwInitD, p.1 < 256 := by
  intro p hp
  rw [lzwInitD] at hp
  rcases List.mem_map.mp hp with ⟨i, hi, rfl⟩
  exact List.mem_range.mp hi

theorem lzwInitD_vals_single : ∀ p ∈ lzwInitD, p.1 < 256 → p.2.length = 1 := by
  intro p hp _
  rw [lzwInitD] at hp
  rcases List.mem_map.mp hp with ⟨i, hi, rfl⟩
  rfl

theorem lzwInitC_lookup_single {c : Nat} (h : c < 256) : lzwInitC.lookup [c] = some c :=
  lookup_eq_of_nodup_mem lzwInitC_keys_nodup (mem_lzwInitC h)

theorem lzwInitC_lookup_pair (x y : Nat) : lzwInitC.lookup [x, y] = none := by
  apply lookup_none_of_not_mem_keys
  intro hm
  rw [lzwInitC, List.map_map] at hm
  rcases List.mem_map.mp hm with ⟨i, _, hi⟩
  simp at hi

theorem map_mod_id (n : Nat) : ∀ (l : List Nat), (∀ r ∈ l, r < n) →
    l.map (fun code => code % n) = l := by
  intro l
  induction l with
  | nil => intro _; rfl
  | cons a t ih =>
    intro h
    rw [List.map_cons, Nat.mod_eq_of_lt (h a (List.mem_cons_self a t)),
      ih (fun r hr => h r (List.mem_cons_of_mem a hr))]

theorem compressLoop_append : ∀ (input : List Nat) (dict : List (List Nat × Nat))
    (ds : Nat) (w res : List Nat),
    compressLoop input dict ds w res = res ++ compressLoop input dict ds w [] := by
  intro input
  induction input with
  | nil =>
    intro dict ds w res
    rw [compressLoop, compressLoop]
    by_cases h : w = []
    · rw [if_pos h, if_pos h, List.append_nil]
    · rw [if_neg h, if_neg h, List.nil_append]
  | cons c rest ih =>
    intro dict ds w res
    rw [compressLoop, compressLoop]
    by_cases h : (dict.lookup (w ++ [c])).isSome
    · rw [if_pos h, if_pos h]
      exact ih dict ds (w ++ [c]) res
    · rw [if_neg h, if_neg h]
      rw [ih ((w ++ [c], ds) :: dict) (ds + 1) [c] (res ++ [(dict.lookup w).getD 0]),
        ih ((w ++ [c], ds) :: dict) (ds + 1) [c] ([] ++ [(dict.lookup w).getD 0])]
      simp [List.append_assoc]

theorem compressLoop_codes_lt : ∀ (input : List Nat) (dict : List (List Nat × Nat))
    (ds : Nat) (w res : List Nat), 0 < ds →
    (∀ p ∈ dict, p.2 < ds) → (∀ r ∈ res, r < ds) →
    ∀ r ∈ compressLoop input dict ds w res, r < ds + input.length := by
  intro input
  induction input with
  | nil =>
    intro dict ds w res h0 hdict hres r hr
    rw [compressLoop] at hr
    by_cases h : w = []
    · rw [if_pos h] at hr
      simpa using hres r hr
    · rw [if_neg h] at hr
      rcases List.mem_append.mp hr with h1 | h2
      · simpa using hres r h1
      · rcases List.mem_singleton.mp h2 with rfl
        have hlt : (dict.lookup w).getD 0 < ds := by
          cases hl : dict.lookup w with
          | none => simpa using h0
          | some v => simpa using hdict (w, v) (lookup_mem hl)
        simpa using hlt
  | cons c rest ih =>
    intro dict ds w res h0 hdict hres r hr
    rw [compressLoop] at hr
    by_cases h : (dict.lookup (w ++ [c])).isSome
    · rw [if_pos h] at hr
      have h2 := ih dict ds (w ++ [c]) res h0 hdict hres r hr
      simp only [List.length_cons]
      omega
    · rw [if_neg h] at hr
      have hlt : (dict.lookup w).getD 0 < ds := by
        cases hl : dict.lookup w with
        | none => simpa using h0
        | some v => simpa using hdict (w, v) (lookup_mem hl)
      have h2 := ih ((w ++ [c], ds) :: dict) (ds + 1) [c]
        (res ++ [(dict.lookup w).getD 0]) (by omega)
        (by intro p hp
            rcases List.mem_cons.mp hp with h3 | h4
            · rw [h3]
              exact Nat.lt_succ_self ds
            · exact Nat.lt_succ_of_lt (hdict p h4))
        (by intro x hx
            rcases List.mem_append.mp hx with h3 | h4
            · exact Nat.lt_succ_of_lt (hres x h3)
            · rcases List.mem_singleton.mp h4 with rfl
              exact Nat.lt_succ_of_lt hlt)
        r hr
      simp only [List.length_cons] at h2 ⊢
      omega

theorem decompressLoop_small : ∀ (ks : List Nat) (ddict : List (Nat × List Nat))
    (dsize : Nat) (w out res : List Nat), 256 ≤ dsize →
    (∀ p ∈ ddict, p.1 < 256 → p.2.length = 1) → (∀ k ∈ ks, k < 256) →
    decompressLoop ks ddict dsize w out = some res →
    res.length = out.length + ks.length := by
  intro ks
  induction ks with
  | nil =>
    intro ddict dsize w out res _ _ _ h
    rw [decompressLoop] at h
    cases h
    simp
  | cons k rest ih =>
    intro ddict dsize w out res hds hsingle hks h
    rw [decompressLoop] at h
    cases hl : ddict.lookup k with
    | some entry =>
      rw [hl] at h
      have hlen1 : entry.length = 1 :=
        hsingle (k, entry) (lookup_mem hl) (hks k (List.mem_cons_self k rest))
      have h2 := ih ((dsize, w ++ [entry.headD 0]) :: ddict) (dsize + 1) entry
        (out ++ entry) res (by omega)
        (by intro p hp
            rcases List.mem_cons.mp hp with h3 | h4
            · intro hlt
              exfalso
              rw [h3] at hlt
              simp at hlt
              omega
            · exact hsingle p h4)
        (fun x hx => hks x (List.mem_cons_of_mem k hx)) h
      rw [h2]
      simp only [List.length_append, List.length_cons, hlen1]
      omega
    | none =>
      rw [hl] at h
      rw [if_neg (by have := hks k (List.mem_cons_self k rest); omega)] at h
      cases h

/-- One decoder step mirrors one encoder emission: the code the encoder
emits for its window decodes to that window and makes the decoder add the
same dictionary entry the encoder added when the window started. -/
theorem decode_step (ddict : List (Nat × List Nat)) (dsize : Nat)
    (w_d w out : List Nat) (r : Nat) (ks : List Nat)
    (hwd : w_d ≠ [])
    (hlook : (((w_d ++ [w.headD 0], dsize) :: ddict.map Prod.swap).lookup w) = some r)
    (hcodes : ∀ p ∈ ddict, p.1 < dsize)
    (hnodupD : (ddict.map Prod.fst).Nodup) :
    decompressLoop (r :: ks) ddict dsize w_d out
      = decompressLoop ks ((dsize, w_d ++ [w.headD 0]) :: ddict) (dsize + 1) w
          (out ++ w) := by
  rw [List.lookup] at hlook
  cases hbeq : w == (w_d ++ [w.headD 0]) with
  | true =>
    rw [hbeq] at hlook
    have hw_eq : w = w_d ++ [w.headD 0] := eq_of_beq hbeq
    simp only [Option.some.injEq] at hlook
    subst hlook
    have hl_none : ddict.lookup dsize = none := by
      cases hl : ddict.lookup dsize with
      | none => rfl
      | some v =>
        have := hcodes (dsize, v) (lookup_mem hl)
        simp at this
    have hhead : w.headD 0 = w_d.headD 0 := by
      conv_lhs => rw [hw_eq]
      exact headD_append w_d [w.headD 0] 0 hwd
    have hent : w_d ++ [w_d.headD 0] = w := by
      rw [← hhead]
      exact hw_eq.symm
    rw [decompressLoop, hl_none, if_pos rfl]
    dsimp only
    rw [headD_append w_d [w_d.headD 0] 0 hwd, hent, ← hw_eq]
  | false =>
    rw [hbeq] at hlook
    dsimp only at hlook
    have hmem : (r, w) ∈ ddict := by
      have h2 := lookup_mem hlook
      rcases List.mem_map.mp h2 with ⟨p, hp, hpe⟩
      obtain ⟨p1, p2⟩ := p
      simp only [Prod.swap_prod_mk, Prod.mk.injEq] at hpe
      obtain ⟨he1, he2⟩ := hpe
      subst he1
      subst he2
      exact hp
    have hdd : ddict.lookup r = some w := lookup_eq_of_nodup_mem hnodupD hmem
    rw [decompressLoop, hdd]

/-- The LZW simulation invariant: when the encoder still has to consume
`input`, its dictionary is the decoder dictionary mirrored plus one extra
entry (the one the encoder added when the current window `w` started,
which the decoder can only add after receiving the next code), the decoder
sits one window behind (`w_d`), and replaying the remaining emitted codes
reproduces exactly the remaining text. -/
theorem lzw_main : ∀ (input : List Nat) (D : List (List Nat × Nat))
    (w w_d out : List Nat) (ddict : List (Nat × List Nat)) (dsize : Nat),
    D = (w_d ++ [w.headD 0], dsize) :: ddict.map Prod.swap →
    (∀ u ∈ input, u < 256) → w ≠ [] → w_d ≠ [] →
    (D.lookup w).isSome →
    (D.map Prod.fst).Nodup →
    (ddict.map Prod.fst).Nodup →
    (∀ p ∈ ddict, p.1 < dsize) →
    (∀ c : Nat, c < 256 → (c, [c]) ∈ ddict) →
    decompressLoop (compressLoop input D (dsize + 1) w []) ddict dsize w_d out
      = some (out ++ w ++ input) := by
  intro input
  induction input with
  | nil =>
    intro D w w_d out ddict dsize hD hunits hw hwd hsome hnodupC hnodupD hcodes hinit
    rw [compressLoop, if_neg hw, List.nil_append]
    obtain ⟨r, hr⟩ := Option.isSome_iff_exists.mp hsome
    rw [hr]
    simp only [Option.getD_some]
    rw [decode_step ddict dsize w_d w out r [] hwd (by rw [hD] at hr; exact hr)
      hcodes hnodupD]
    rw [decompressLoop, List.append_nil]
  | cons c rest ih =>
    intro D w w_d out ddict dsize hD hunits hw hwd hsome hnodupC hnodupD hcodes hinit
    have hc256 : c < 256 := hunits c (List.mem_cons_self c rest)
    rw [compressLoop]
    by_cases hwc : (D.lookup (w ++ [c])).isSome
    · rw [if_pos hwc]
      have h2 := ih D (w ++ [c]) w_d out ddict dsize
        (by rw [hD, headD_append w [c] 0 hw])
        (fun u hu => hunits u (List.mem_cons_of_mem c hu))
        (by simp) hwd hwc hnodupC hnodupD hcodes hinit
      rw [h2]
      simp
    · rw [if_neg hwc]
      obtain ⟨r, hr⟩ := Option.isSome_iff_exists.mp hsome
      rw [List.nil_append, hr]
      simp only [Option.getD_some]
      rw [compressLoop_append rest ((w ++ [c], dsize + 1) :: D) (dsize + 1 + 1) [c] [r],
        List.singleton_append]
      rw [decode_step ddict dsize w_d w out r _ hwd (by rw [hD] at hr; exact hr)
        hcodes hnodupD]
      have h2 := ih ((w ++ [c], dsize + 1) :: D) [c] w (out ++ w)
        ((dsize, w_d ++ [w.headD 0]) :: ddict) (dsize + 1)
        (by rw [hD]; rfl)
        (fun u hu => hunits u (List.mem_cons_of_mem c hu))
        (by simp) hw
        (by apply lookup_isSome_of_mem_keys
            refine List.mem_map.mpr ⟨([c], c), List.mem_cons_of_mem _ ?_, rfl⟩
            rw [hD]
            exact List.mem_cons_of_mem _
              (List.mem_map.mpr ⟨(c, [c]), hinit c hc256, rfl⟩))
        (by rw [List.map_cons]
            exact List.nodup_cons.mpr
              ⟨not_mem_keys_of_lookup_none (Option.not_isSome_iff_eq_none.mp hwc),
                hnodupC⟩)
        (by rw [List.map_cons]
            refine List.nodup_cons.mpr ⟨?_, hnodupD⟩
            intro hm
            rcases List.mem_map.mp hm with ⟨p, hp, hpe⟩
            have := hcodes p hp
            simp only at hpe
            omega)
        (by intro p hp
            rcases List.mem_cons.mp hp with h3 | h4
            · rw [h3]
              exact Nat.lt_succ_self dsize
            · exact Nat.lt_succ_of_lt (hcodes p h4))
        (fun c2 h => List.mem_cons_of_mem _ (hinit c2 h))
      rw [h2]
      simp

/-- The LZW round-trip on the compression path: for at least 50 units,
all below U+0100, and few enough that no emitted code reaches the 16-bit
wrap of `String.fromCharCode`, decompress inverts compress. -/
theorem lzw_roundtrip_long (s : List Nat) (hunits : ∀ u ∈ s, u < 256)
    (hlen : 50 ≤ s.length) (hbound : s.length ≤ 65280) :
    Compression.decompress (Compression.compress s) = some s := by
  obtain ⟨c0, s1, rfl⟩ : ∃ c0 s1, s = c0 :: s1 := by
    cases s with
    | nil => simp at hlen
    | cons a t => exact ⟨a, t, rfl⟩
  obtain ⟨c1, rest, rfl⟩ : ∃ c1 rest, s1 = c1 :: rest := by
    cases s1 with
    | nil => simp at hlen
    | cons a t => exact ⟨a, t, rfl⟩
  have hc0 : c0 < 256 := hunits c0 (by simp)
  have hc1 : c1 < 256 := hunits c1 (by simp)
  have hstep : compressLoop (c0 :: c1 :: rest) lzwInitC 256 [] []
      = c0 :: compressLoop rest (([c0, c1], 256) :: lzwInitC) (256 + 1) [c1] [] := by
    rw [compressLoop]
    simp only [List.nil_append]
    rw [if_pos (by rw [lzwInitC_lookup_single hc0]; rfl)]
    rw [compressLoop]
    rw [show [c0] ++ [c1] = [c0, c1] from rfl]
    rw [if_neg (by rw [lzwInitC_lookup_pair]; simp)]
    rw [lzwInitC_lookup_single hc0]
    simp only [Option.getD_some, List.nil_append]
    rw [compressLoop_append rest (([c0, c1], 256) :: lzwInitC) (256 + 1) [c1] [c0],
      List.singleton_append]
  have hmain : decompressLoop
      (compressLoop rest (([c0, c1], 256) :: lzwInitC) (256 + 1) [c1] [])
      lzwInitD 256 [c0] [c0] = some ([c0] ++ [c1] ++ rest) := by
    apply lzw_main rest (([c0, c1], 256) :: lzwInitC) [c1] [c0] [c0] lzwInitD 256
    · rw [initD_swap]
      rfl
    · exact fun u hu => hunits u (by simp [hu])
    · simp
    · simp
    · apply lookup_isSome_of_mem_keys
      exact List.mem_map.mpr ⟨([c1], c1), List.mem_cons_of_mem _ (mem_lzwInitC hc1), rfl⟩
    · rw [List.map_cons]
      refine List.nodup_cons.mpr ⟨?_, lzwInitC_keys_nodup⟩
      intro hm
      rw [lzwInitC, List.map_map] at hm
      rcases List.mem_map.mp hm with ⟨i, _, hi⟩
      simp at hi
    · exact lzwInitD_codes_nodup
    · exact lzwInitD_codes_lt
    · exact fun c h => mem_lzwInitD h
  have hnotlt : ¬ ((c0 :: c1 :: rest).length < 50) := by omega
  have hbnd : ∀ r ∈ compressLoop (c0 :: c1 :: rest) lzwInitC 256 [] [], r < 65536 := by
    intro r hr
    have h2 := compressLoop_codes_lt (c0 :: c1 :: rest) lzwInitC 256 [] [] (by omega)
      (by intro p hp
          rw [lzwInitC] at hp
          rcases List.mem_map.mp hp with ⟨i, hi, rfl⟩
          exact List.mem_range.mp hi)
      (by intro x hx; simp at hx) r hr
    simp only [List.length_cons] at h2 hbound
    omega
  have hcomp : Compression.compress (c0 :: c1 :: rest)
      = c0 :: compressLoop rest (([c0, c1], 256) :: lzwInitC) (256 + 1) [c1] [] := by
    rw [Compression.compress, if_neg (by simp), if_neg hnotlt,
      map_mod_id 65536 _ hbnd, hstep]
  rw [hcomp, Compression.decompress.eq_def, if_neg (by simp), if_neg ?hnotshort]
  case hnotshort =>
    rintro ⟨hlt, hall⟩
    have hK256 : ∀ k ∈ compressLoop rest (([c0, c1], 256) :: lzwInitC) (256 + 1) [c1] [],
        k < 256 := by
      intro k hk
      have h3 := List.all_eq_true.mp hall k (List.mem_cons_of_mem c0 hk)
      exact of_decide_eq_true h3
    have hlen2 := decompressLoop_small
      (compressLoop rest (([c0, c1], 256) :: lzwInitC) (256 + 1) [c1] [])
      lzwInitD 256 [c0] [c0] ([c0] ++ [c1] ++ rest) (le_refl 256)
      lzwInitD_vals_single hK256 hmain
    simp only [List.length_append, List.length_cons, List.length_nil] at hlen2 hlt hlen
    omega
  dsimp only
  rw [hmain]
  simp

/-- C10 counterexample: the round-trip fails on strings containing a unit
at or above U+0100 — on the two-unit string "a"+U+0100 (compress returns
it unchanged, decompress treats the high unit as compressed data and
decodes it to "aaa"), and on a 50-unit string ending in U+0100 (the
compressor dictionary has no entry for the high unit and emits code 0). -/
theorem C10_roundtrip_counterexample :
    (Compression.decompress (Compression.compress [97, 256]) = some [97, 97, 97]
      ∧ Compression.decompress (Compression.compress [97, 256]) ≠ some [97, 256])
    ∧ Compression.decompress (Compression.compress (List.replicate 49 97 ++ [256]))
        ≠ some (List.replicate 49 97 ++ [256]) := by
  refine ⟨⟨?_, ?_⟩, ?_⟩
  · decide
  · decide
  · decide

/-- C10 amended: the round-trip `decompress (compress s) = s` holds for
every string whose UTF-16 units are all below U+0100 and whose length is
at most 65280 units: strings of fewer than 50 units pass through both
functions unchanged, and longer strings take the LZW path, which the
decoder inverts exactly; the length cap keeps every emitted code below
the 2^16 wrap of `String.fromCharCode` (the dictionary grows by at most
one code per input unit from 256). -/
theorem C10_roundtrip_amended (s : List Nat) (hunits : ∀ u ∈ s, u < 256)
    (hbound : s.length ≤ 65280) :
    Compression.decompress (Compression.compress s) = some s := by
  by_cases hlen : s.length < 50
  · by_cases hs : s = []
    · subst hs
      rfl
    · rw [Compression.compress, if_neg hs, if_pos hlen,
        Compression.decompress.eq_def, if_neg hs, if_pos]
      refine ⟨hlen, ?_⟩
      rw [List.all_eq_true]
      intro u hu
      exact decide_eq_true (hunits u hu)
  · exact lzw_roundtrip_long s hunits (Nat.le_of_not_lt hlen) hbound

/-- Witness for the amended C10 on the LZW path: fifty letters "a"
compress to codes that decompress back to the original. -/
theorem C10_roundtrip_amended_witness :
    Compression.decompress (Compression.compress (List.replicate 50 97))
      = some (List.replicate 50 97) :=
  C10_roundtrip_amended (List.replicate 50 97) (by decide) (by decide)

/-- C2 counterexample: the claim says a blank line never forces a boundary
(`eventBoundary` returns `false` for blank lines while an event is open),
but the source returns `hasCurrent`, so a blank line with an open event
returns `true` and closes the event. -/
theorem C2_blank_line_counterexample : eventBoundary "" true = true := by decide

/-- C2 amended: for a blank (all-whitespace) line `eventBoundary` returns
`hasCurrent` — so with an event open a blank line does force a boundary;
with an event open, a non-blank line starts a new event exactly when it
matches one of the five structural markers; with no event open the result
is always `false`. -/
theorem C2_eventBoundary_amended :
    (∀ (line : String) (hasCurrent : Bool), (jsTrim line).toList = [] →
      eventBoundary line hasCurrent = hasCurrent)
    ∧ (∀ line : String, (jsTrim line).toList ≠ [] →
      eventBoundary line true = isStructuralMarker (jsTrim line).toList)
    ∧ (∀ line : String, eventBoundary line false = false) := by
  refine ⟨?_, ?_, ?_⟩
  · intro line hasCurrent h
    simp [eventBoundary, show (jsTrim line).data = [] from h]
  · intro line h
    simp [eventBoundary, show (jsTrim line).data ≠ [] from h]
  · intro line
    rw [eventBoundary]
    by_cases h : (jsTrim line).toList = [] <;> simp [h]

/-- Witness for the amended C2: an all-whitespace line closes an open
event, and a concrete non-blank line follows the marker test. -/
theorem C2_eventBoundary_amended_witness :
    eventBoundary " " true = true
    ∧ eventBoundary "abc" true = isStructuralMarker (jsTrim "abc").toList :=
  ⟨C2_eventBoundary_amended.1 " " true (by decide),
   C2_eventBoundary_amended.2.1 "abc" (by decide)⟩

theorem mem_insertByKeyDesc {α β : Type} [LinearOrder β] (key : α → β) (x z : α) :
    ∀ l : List α, z ∈ insertByKeyDesc key x l ↔ z = x ∨ z ∈ l := by
  intro l
  induction l with
  | nil => simp [insertByKeyDesc]
  | cons y ys ih =>
    rw [insertByKeyDesc]
    split
    · simp
    · rw [List.mem_cons, ih, List.mem_cons]
      tauto

theorem sorted_insertByKeyDesc {α β : Type} [LinearOrder β] (key : α → β) (x : α) :
    ∀ l : List α, List.Sorted (fun a b => key b ≤ key a) l →
      List.Sorted (fun a b => key b ≤ key a) (insertByKeyDesc key x l) := by
  intro l
  induction l with
  | nil => intro _; simp [insertByKeyDesc]
  | cons y ys ih =>
    intro hs
    rw [insertByKeyDesc]
    have hys := hs.of_cons
    have hrel := List.rel_of_sorted_cons hs
    split
    · rename_i hlt
      refine List.Pairwise.cons ?_ hs
      intro z hz
      rcases List.mem_cons.mp hz with h | h
      · subst h; exact le_of_lt hlt
      · exact le_trans (hrel z h) (le_of_lt hlt)
    · rename_i hnlt
      refine List.Pairwise.cons ?_ (ih hys)
      intro z hz
      rcases (mem_insertByKeyDesc key x z ys).mp hz with h | h
      · subst h; exact not_lt.mp hnlt
      · exact hrel z h

theorem sorted_sortByKeyDesc {α β : Type} [LinearOrder β] (key : α → β) (l : List α) :
    List.Sorted (fun a b => key b ≤ key a) (sortByKeyDesc key l) := by
  induction l with
  | nil => simp [sortByKeyDesc]
  | cons x xs ih =>
    rw [sortByKeyDesc, List.foldr_cons]
    exact sorted_insertByKeyDesc key x _ ih

theorem mem_sortByKeyDesc {α β : Type} [LinearOrder β] (key : α → β) (z : α)
    (l : List α) : z ∈ sortByKeyDesc key l ↔ z ∈ l := by
  induction l with
  | nil => simp [sortByKeyDesc]
  | cons x xs ih =>
    rw [sortByKeyDesc, List.foldr_cons]
    rw [mem_insertByKeyDesc]
    rw [show List.foldr (insertByKeyDesc key) [] xs = sortByKeyDesc key xs from rfl]
    rw [ih, List.mem_cons]

theorem lookupSims_mem (idx : LSHIndex) (sig : List (Option Nat)) :
    ∀ (cands : List Nat) (res : List (Nat × ℚ)),
      lookupSims idx sig cands = some res →
      ∀ p ∈ res, ∃ isig, idx.items.lookup p.1 = some isig ∧
        p.2 = estimateSimilarity sig isig := by
  intro cands
  induction cands with
  | nil =>
    intro res h p hp
    rw [lookupSims] at h
    cases h
    simp at hp
  | cons id rest ih =>
    intro res h p hp
    rw [lookupSims] at h
    cases hli : idx.items.lookup id with
    | none => rw [hli] at h; cases h
    | some isig =>
      rw [hli] at h
      cases hrest : lookupSims idx sig rest with
      | none => rw [hrest] at h; cases h
      | some ps =>
        rw [hrest] at h
        cases h
        rcases List.mem_cons.mp hp with hcase | hcase
        · subst hcase
          exact ⟨isig, hli, rfl⟩
        · exact ih ps hrest p hcase

/-- C4: whenever `LSHIndex.query` returns a result list, every returned
item has estimated full-signature similarity (fraction of matching
signature positions against its stored signature) at least the requested
threshold, and the list is sorted in descending order of that similarity. -/
theorem C4_lsh_query_filter_sorted (idx : LSHIndex) (sig : List (Option Nat))
    (t : ℚ) (res : List (Nat × ℚ)) (h : idx.query sig t = some res) :
    (∀ p ∈ res, t ≤ p.2 ∧ ∃ isig, idx.items.lookup p.1 = some isig ∧
      p.2 = estimateSimilarity sig isig)
    ∧ List.Sorted (fun p q : Nat × ℚ => q.2 ≤ p.2) res := by
  rw [LSHIndex.query] at h
  set cands := (List.range idx.numBands).foldl (fun acc band =>
    let start := band * idx.bandSize
    let bandSignature := (sig.drop start).take idx.bandSize
    let bh := hashBand idx.hashSeed bandSignature band
    match (idx.bands.getD band []).lookup bh with
    | some bucket =>
      bucket.foldl (fun acc id => if acc.contains id then acc else acc ++ [id]) acc
    | none => acc) [] with hcands
  cases hls : lookupSims idx sig cands with
  | none => rw [hls] at h; cases h
  | some pairs =>
    rw [hls] at h
    cases h
    constructor
    · intro p hp
      have hp' := (mem_sortByKeyDesc (fun q : Nat × ℚ => q.2) p _).mp hp
      have hmem := List.mem_filter.mp hp'
      refine ⟨of_decide_eq_true hmem.2, ?_⟩
      exact lookupSims_mem idx sig cands pairs hls p hmem.1
    · exact sorted_sortByKeyDesc (fun q : Nat × ℚ => q.2) _

/-- Witness for C4: querying the concrete two-item index at threshold 1/2
returns both items, above threshold and in descending similarity order. -/
theorem C4_lsh_query_witness :
    (∀ p ∈ ([(1, (1 : ℚ)), (2, (1 / 2 : ℚ))] : List (Nat × ℚ)),
      (1 / 2 : ℚ) ≤ p.2 ∧ ∃ isig, idxW.items.lookup p.1 = some isig ∧
        p.2 = estimateSimilarity [some 5, some 7] isig)
    ∧ List.Sorted (fun p q : Nat × ℚ => q.2 ≤ p.2)
        ([(1, (1 : ℚ)), (2, (1 / 2 : ℚ))] : List (Nat × ℚ)) :=
  C4_lsh_query_filter_sorted idxW [some 5, some 7] (1 / 2)
    [(1, 1), (2, 1 / 2)] (by with_unfolding_all decide)

/-- C8: `buildClustersNoEmbeddings` validates its input before any
clustering work: an empty events array or more than `MAX_EVENTS = 50000`
events fails validation, the call returns the validation errors (raised
before thresholds are computed or clusters formed), and the error list is
non-empty; a validated events array never raises — the call proceeds to
the threshold computation and the clustering engine. -/
theorem C8_preflight_validation :
    (∀ (strategyKey : AdaptiveThresholds → List (String × Cluster) → Event → String)
      (events : List Event),
      events = [] ∨ MAX_EVENTS < events.length →
      (validateEvents events).isValid = false
        ∧ buildClustersNoEmbeddings strategyKey events
            = Except.error (validateEvents events).errors
        ∧ (validateEvents events).errors ≠ [])
    ∧ (∀ (strategyKey : AdaptiveThresholds → List (String × Cluster) → Event → String)
      (events : List Event),
      (validateEvents events).isValid = true →
      buildClustersNoEmbeddings strategyKey events =
        Except.ok (buildClustersAbstract
          (strategyKey (calculateAdaptiveThresholds events)) events)) := by
  constructor
  · intro strategyKey events h
    have hval : (validateEvents events).isValid = false ∧
        (validateEvents events).errors ≠ [] := by
      rcases h with h | h
      · subst h
        constructor <;> simp [validateEvents]
      · have hne : ¬ events.length = 0 := by
          rw [MAX_EVENTS] at h
          omega
        rw [validateEvents, if_neg hne]
        simp only [if_pos h]
        constructor
        · simp [List.isEmpty]
        · simp
    refine ⟨hval.1, ?_, hval.2⟩
    rw [buildClustersNoEmbeddings, if_pos hval.1]
  · intro strategyKey events h
    rw [buildClustersNoEmbeddings]
    rw [if_neg (by rw [h]; simp)]
    rfl

/-- Witness for C8: the empty array and a 50001-element array fail
pre-flight validation (and the call errors out), while a concrete
one-event array passes and reaches the engine. -/
theorem C8_preflight_validation_witness :
    ((validateEvents ([] : List Event)).isValid = false
      ∧ buildClustersNoEmbeddings skW [] = Except.error (validateEvents []).errors
      ∧ (validateEvents ([] : List Event)).errors ≠ [])
    ∧ ((validateEvents (List.replicate 50001 evW)).isValid = false
      ∧ buildClustersNoEmbeddings skW (List.replicate 50001 evW)
          = Except.error (validateEvents (List.replicate 50001 evW)).errors
      ∧ (validateEvents (List.replicate 50001 evW)).errors ≠ [])
    ∧ buildClustersNoEmbeddings skW [evW] =
        Except.ok (buildClustersAbstract
          (skW (calculateAdaptiveThresholds [evW])) [evW]) :=
  ⟨C8_preflight_validation.1 skW [] (Or.inl rfl),
   C8_preflight_validation.1 skW (List.replicate 50001 evW)
     (Or.inr (by rw [MAX_EVENTS, List.length_replicate]; omega)),
   C8_preflight_validation.2 skW [evW] (by decide)⟩

theorem lookup_setKey_self {κ α : Type} [DecidableEq κ] (m : List (κ × α)) (k : κ)
    (v : α) : (setKey m k v).lookup k = some v := by
  induction m with
  | nil => simp [setKey, List.lookup]
  | cons p rest ih =>
    obtain ⟨k0, w⟩ := p
    rw [setKey]
    by_cases h : k0 = k
    · subst h
      simp [List.lookup]
    · rw [if_neg h, List.lookup, beq_false_of_ne (Ne.symm h)]
      exact ih

theorem lookup_setKey_ne {κ α : Type} [DecidableEq κ] (m : List (κ × α)) (k k' : κ)
    (v : α) (h : k' ≠ k) : (setKey m k v).lookup k' = m.lookup k' := by
  induction m with
  | nil => simp [setKey, List.lookup, beq_false_of_ne h]
  | cons p rest ih =>
    obtain ⟨k0, w⟩ := p
    rw [setKey]
    by_cases hk : k0 = k
    · subst hk
      simp [List.lookup, beq_false_of_ne h]
    · rw [if_neg hk]
      by_cases h2 : k' = k0
      · subst h2
        simp [List.lookup]
      · simp only [List.lookup, beq_false_of_ne h2]
        exact ih

theorem mem_setKey {κ α : Type} [DecidableEq κ] {m : List (κ × α)} {k : κ} {v : α}
    {p : κ × α} (h : p ∈ setKey m k v) : p ∈ m ∨ p = (k, v) := by
  induction m with
  | nil =>
    rw [setKey] at h
    rcases List.mem_singleton.mp h with h1
    exact Or.inr h1
  | cons q rest ih =>
    obtain ⟨k0, w⟩ := q
    rw [setKey] at h
    by_cases hk : k0 = k
    · subst hk
      rw [if_pos rfl] at h
      rcases List.mem_cons.mp h with h1 | h2
      · exact Or.inr h1
      · exact Or.inl (List.mem_cons_of_mem _ h2)
    · rw [if_neg hk] at h
      rcases List.mem_cons.mp h with h1 | h2
      · exact Or.inl (by rw [h1]; exact List.mem_cons_self _ _)
      · rcases ih h2 with h3 | h4
        · exact Or.inl (List.mem_cons_of_mem _ h3)
        · exact Or.inr h4

/-- The category-count bump of the abstract engine preserves the argmax
property of the primary category: promote on strict overtake is enough. -/
theorem bump_argmax (counts : List (String × Nat)) (primary cat c0 : String)
    (h : ∀ c1, (counts.lookup c1).getD 0 ≤ (counts.lookup primary).getD 0) :
    ((setKey counts cat ((counts.lookup cat).getD 0 + 1)).lookup c0).getD 0
      ≤ ((setKey counts cat ((counts.lookup cat).getD 0 + 1)).lookup
          (if ((setKey counts cat ((counts.lookup cat).getD 0 + 1)).lookup primary).getD 0
              < ((setKey counts cat ((counts.lookup cat).getD 0 + 1)).lookup cat).getD 0
            then cat else primary)).getD 0 := by
  have hself := lookup_setKey_self counts cat ((counts.lookup cat).getD 0 + 1)
  by_cases hpc : primary = cat
  · subst hpc
    rw [if_neg (lt_irrefl _)]
    by_cases hc0 : c0 = primary
    · subst hc0
      exact le_refl _
    · rw [lookup_setKey_ne counts primary c0 _ hc0, hself]
      have h0 := h c0
      simp only [Option.getD_some]
      omega
  · have hprim := lookup_setKey_ne counts cat primary ((counts.lookup cat).getD 0 + 1) hpc
    by_cases hlt : ((setKey counts cat ((counts.lookup cat).getD 0 + 1)).lookup primary).getD 0
        < ((setKey counts cat ((counts.lookup cat).getD 0 + 1)).lookup cat).getD 0
    · rw [if_pos hlt]
      by_cases hc0 : c0 = cat
      · subst hc0
        exact le_refl _
      · rw [lookup_setKey_ne counts cat c0 _ hc0, hself]
        rw [hprim, hself] at hlt
        have h0 := h c0
        simp only [Option.getD_some] at hlt ⊢
        omega
    · rw [if_neg hlt]
      by_cases hc0 : c0 = cat
      · subst hc0
        exact Nat.le_of_not_lt hlt
      · rw [lookup_setKey_ne counts cat c0 _ hc0, hprim]
        exact h c0

/-- One step of the abstract engine preserves the argmax invariant for
every cluster in the map. -/
theorem processEvent_argmax (keyFn : List (String × Cluster) → Event → String)
    (clusters : List (String × Cluster)) (event : Event)
    (h : ∀ p ∈ clusters, specPrimaryIsArgmax p.2) :
    ∀ p ∈ processEvent keyFn clusters event, specPrimaryIsArgmax p.2 := by
  intro p hp
  have hbase : ∀ q ∈ (if (clusters.lookup (keyFn clusters event)).isSome then clusters
      else clusters ++ [(keyFn clusters event,
        createNewCluster (keyFn clusters event) event)]),
      specPrimaryIsArgmax q.2 := by
    intro q hq
    by_cases hc : (clusters.lookup (keyFn clusters event)).isSome
    · rw [if_pos hc] at hq
      exact h q hq
    · rw [if_neg hc] at hq
      rcases List.mem_append.mp hq with h1 | h2
      · exact h q h1
      · rcases List.mem_singleton.mp h2 with h3
        rw [h3]
        intro cat
        simp [createNewCluster, List.lookup]
  simp only [processEvent] at hp
  cases hl : (if (clusters.lookup (keyFn clusters event)).isSome then clusters
      else clusters ++ [(keyFn clusters event,
        createNewCluster (keyFn clusters event) event)]).lookup (keyFn clusters event) with
  | none =>
    rw [hl] at hp
    exact hbase p hp
  | some cluster =>
    rw [hl] at hp
    rcases mem_setKey hp with h1 | h2
    · exact hbase p h1
    · rw [h2]
      intro cat
      exact bump_argmax cluster.categoryCounts cluster.primaryCategory
        (getEventCategory event) cat
        (fun c1 => hbase (keyFn clusters event, cluster) (lookup_mem hl) c1)

/-- Folding the abstract engine's event loop preserves the argmax
invariant. -/
theorem foldl_processEvent_argmax (keyFn : List (String × Cluster) → Event → String)
    (events : List Event) :
    ∀ (init : List (String × Cluster)), (∀ p ∈ init, specPrimaryIsArgmax p.2) →
      ∀ p ∈ events.foldl (processEvent keyFn) init, specPrimaryIsArgmax p.2 := by
  induction events with
  | nil =>
    intro init h
    simpa using h
  | cons e rest ih =>
    intro init h
    rw [List.foldl_cons]
    exact ih _ (processEvent_argmax keyFn init e h)

/-- Folding addEvent over a hierarchical cluster keeps the seed event at
the head of the event list and never changes the primary category. -/
theorem foldl_addEvent_seed {α : Type} (f : α → Event) (level : Nat) :
    ∀ (l : List α) (c : HCluster), c.events ≠ [] →
      (l.foldl (fun c x => c.addEvent (f x) level) c).primaryCategory = c.primaryCategory
        ∧ (l.foldl (fun c x => c.addEvent (f x) level) c).events.head? = c.events.head?
        ∧ (l.foldl (fun c x => c.addEvent (f x) level) c).events ≠ [] := by
  intro l
  induction l with
  | nil =>
    intro c hc
    exact ⟨rfl, rfl, hc⟩
  | cons x rest ih =>
    intro c hc
    rw [List.foldl_cons]
    have hne : (c.addEvent (f x) level).events ≠ [] := by
      simp [HCluster.addEvent]
    have h1 := ih (c.addEvent (f x) level) hne
    refine ⟨h1.1, h1.2.1.trans ?_, h1.2.2⟩
    show (c.events ++ [f x]).head? = c.events.head?
    cases hev : c.events with
    | nil => exact absurd hev hc
    | cons a t => rfl

/-- Every cluster produced by a pass of clusterAtLevelLSH has its seed
event at the head and carries the seed's primary category. -/
theorem clusterAtLevelLSH_seed (allEvents : List (Nat × Event)) (level : Nat)
    (th : AdaptiveThresholds) (lsh : LSHIndex)
    (eventSigs : List (Nat × List (Option Nat))) :
    ∀ (fuel : Nat) (unassigned processed : List Nat),
      ∀ c ∈ (clusterAtLevelLSH allEvents level th lsh eventSigs
          fuel unassigned processed).1,
        ∃ e : Event, c.events.head? = some e ∧ c.primaryCategory = e.primaryCategory := by
  intro fuel
  induction fuel with
  | zero =>
    intro unassigned processed c hc
    rw [clusterAtLevelLSH.eq_def] at hc
    simp at hc
  | succ n ih =>
    intro unassigned processed c hc
    rw [clusterAtLevelLSH.eq_def] at hc
    cases unassigned with
    | nil => simp at hc
    | cons seedId rest =>
      dsimp only at hc
      rcases List.mem_cons.mp hc with h1 | h2
      · subst h1
        refine ⟨(allEvents.lookup seedId).getD dfltEvent, ?_, ?_⟩
        · exact (foldl_addEvent_seed _ level _ _ (by simp [HCluster.new])).2.1.trans rfl
        · exact (foldl_addEvent_seed _ level _ _ (by simp [HCluster.new])).1.trans rfl
      · exact ih _ _ c h2

/-- Every hierarchical cluster keeps its seed's primary category. -/
theorem performHierarchical_seed (events : List Event) (th : AdaptiveThresholds)
    (out : List HCluster) (h : performHierarchicalClustering events th = some out) :
    ∀ c ∈ out, ∃ e : Event, c.events.head? = some e ∧
      c.primaryCategory = e.primaryCategory := by
  intro c hc
  rw [performHierarchicalClustering] at h
  dsimp only at h
  cases hm : ((events.enum.map (fun p =>
      (p.1, computeSignature 100 0 (tokenizeForSimilarity p.2.signature)))).foldlM
      (fun idx p => idx.add p.1 p.2) (LSHIndex.new 20 5 0)) with
  | none =>
    rw [hm] at h
    exact absurd h (by simp)
  | some lsh =>
    rw [hm] at h
    dsimp only at h
    have hout := Option.some.inj h
    rw [← hout] at hc
    rcases List.mem_append.mp hc with h12 | h3
    · rcases List.mem_append.mp h12 with h1 | h2
      · exact clusterAtLevelLSH_seed _ _ _ _ _ _ _ _ c h1
      · exact clusterAtLevelLSH_seed _ _ _ _ _ _ _ _ c h2
    · exact clusterAtLevelLSH_seed _ _ _ _ _ _ _ _ c h3

/-- The converted hierarchical output keeps its seed's primary category. -/
theorem buildHier_primary (events : List Event) (th : AdaptiveThresholds)
    (out : List Cluster) (h : buildClustersHierarchical events th = some out) :
    ∀ c ∈ out, ∃ e : Event, c.events.head? = some e ∧
      c.primaryCategory = e.primaryCategory := by
  rw [buildClustersHierarchical] at h
  cases hm : performHierarchicalClustering events th with
  | none =>
    rw [hm] at h
    exact absurd h (by simp)
  | some hcs =>
    rw [hm] at h
    have hout : convertHierarchicalToStandardClusters hcs = out := by simpa using h
    intro c hc
    rw [← hout] at hc
    rw [convertHierarchicalToStandardClusters] at hc
    rcases List.mem_map.mp hc with ⟨hcl, hmem, hceq⟩
    obtain ⟨e, he1, he2⟩ := performHierarchical_seed events th hcs hm hcl hmem
    refine ⟨e, ?_, ?_⟩
    · rw [← hceq]
      exact he1
    · rw [← hceq]
      exact he2

/-- C1 counterexample: on three events (an isolated signature followed by
two identical ones) the hierarchical strategy returns clusters of sizes
`[1, 2]` in formation order — not sorted by descending size. -/
theorem C1_hierarchical_counterexample :
    (buildClustersHierarchical c1Events exTh).map (fun out =>
      (out.map (fun c => c.events.length),
        decide (List.Sorted (fun a b : Cluster =>
          b.events.length ≤ a.events.length) out)))
      = some ([1, 2], false) := by
  decide

/-- C1 amended: the abstract (flat adaptive) clustering engine returns its
cluster list sorted by descending size, for every strategy key function
and event list; the hierarchical strategy returns clusters in formation
order (level-1 clusters first), which need not be sorted by size. -/
theorem C1_flat_sorted_amended
    (keyFn : List (String × Cluster) → Event → String) (events : List Event) :
    List.Sorted (fun a b : Cluster => b.events.length ≤ a.events.length)
      (buildClustersAbstract keyFn events) := by
  rw [buildClustersAbstract]
  exact sorted_sortByKeyDesc (fun c : Cluster => c.events.length) _

/-- C3 counterexample: a hierarchical cluster seeded by an "A"-event that
absorbs two "B"-events keeps `primaryCategory = "A"` although "B" has the
strictly larger count in its category map. -/
theorem C3_hierarchical_counterexample :
    (buildClustersHierarchical c3Events exTh).map (fun out =>
      out.map (fun c => (c.primaryCategory,
        (c.categoryCounts.lookup "A").getD 0,
        (c.categoryCounts.lookup "B").getD 0)))
      = some [("A", 1, 2)] := by
  decide


/-- C3 (amended): in the flat adaptive engine the primary category is an
argmax of the category-count map after every event addition and in the
final output; in the hierarchical strategy each cluster instead keeps the
primary category of its seed event (the head of its event list), which
need not be an argmax. -/
theorem C3_primary_category_amended :
    (∀ (keyFn : List (String × Cluster) → Event → String) (events : List Event)
        (n : Nat) (c : Cluster),
      c ∈ (((events.take n).foldl (processEvent keyFn) []).map Prod.snd) →
        specPrimaryIsArgmax c)
    ∧ (∀ (keyFn : List (String × Cluster) → Event → String) (events : List Event)
        (c : Cluster), c ∈ buildClustersAbstract keyFn events → specPrimaryIsArgmax c)
    ∧ (∀ (events : List Event) (th : AdaptiveThresholds) (out : List Cluster),
      buildClustersHierarchical events th = some out →
        ∀ c ∈ out, ∃ e : Event, c.events.head? = some e ∧
          c.primaryCategory = e.primaryCategory) := by
  refine ⟨?_, ?_, ?_⟩
  · intro keyFn events n c hc
    rcases List.mem_map.mp hc with ⟨p, hp, hpq⟩
    rw [← hpq]
    exact foldl_processEvent_argmax keyFn (events.take n) [] (by simp) p hp
  · intro keyFn events c hc
    rw [buildClustersAbstract] at hc
    have hc2 := (mem_sortByKeyDesc (fun c : Cluster => c.events.length) c _).mp hc
    rcases List.mem_map.mp hc2 with ⟨p, hp, hpq⟩
    rw [← hpq]
    exact foldl_processEvent_argmax keyFn events [] (by simp) p hp
  · exact buildHier_primary

/-- Witness for the amended C3: on the concrete hierarchical run, the one
output cluster carries its seed event's primary category at its head. -/
theorem C3_primary_category_amended_witness :
    ∃ e : Event, (c3Out.headD dfltCluster).events.head? = some e ∧
      (c3Out.headD dfltCluster).primaryCategory = e.primaryCategory :=
  C3_primary_category_amended.2.2 c3Events exTh c3Out (by decide)
    (c3Out.headD dfltCluster) (by decide)

end LogSlimmer
